import Mathlib

/-!
# ThreadPool.hpp: a shallow embedding and its verified properties

The pool of `src/ThreadPool.hpp` is embedded as an explicit state (`ThreadPool`)
together with one transition function per thread of control:

* `commitTest`, `commitEnqueue` : the two halves of a call of `ThreadPool::commit`
  (lines 51-71), whose composition is `commit`,
* `workerStep`   : one worker lambda of `addThread` (lines 85-102),
* `managerStep`  : the `manager` thread (lines 107-124),
* `destroyStep`  : the thread running `~ThreadPool` (lines 26-35).

A concurrent execution is a list of `Action`s, each one atomic step of one
thread.  The granularity follows the synchronisation of the source:

* a block under `mux_` is one step.  The locked block of a worker reads the atomic
  `is_exit_` twice (lines 90 and 93); the flag only ever goes from `false` to
  `true` and the queue cannot change under the lock, so the block acts as if both
  reads saw the later value (`locked_block_reads`, `step_exit_mono`);
* a call of `commit` is two steps, since its test of `is_exit_` (line 52) is made
  outside the lock and other threads may move before its locked block;
* every other access to `is_exit_` or `task_run_count_` is a step of its own.

Condition variable: `cv_.wait(lock, pred)` may return whenever `pred` holds on a
re-check (C++ allows spurious wake-ups), so a waiting worker is enabled exactly
when its predicate holds; `notify_one` / `notify_all` change nothing in the
modelled state.

A work item is represented by the outcome of its call; work items that call back
into the pool are not modelled.  `std::packaged_task` and `std::future` follow the
C++ standard library: `Task.invoke`.
-/

namespace ThreadPool

/-- The macro `THREADPOOL_MAX_NUM` (line 12). -/
def THREADPOOL_MAX_NUM : Nat := 16

/-- What a synchronous call `f(args...)` gives: a returned value or a raised failure. -/
inductive Outcome (V E : Type) where
  | returned (v : V)
  | raised (e : E)
  deriving DecidableEq, Repr

/-- Conversion of a `size_t` to `int` (lines 114-115): reduction modulo `2^32`
into the signed range. -/
def toInt (n : Nat) : Int :=
  if n % 2 ^ 32 < 2 ^ 31 then ((n % 2 ^ 32 : Nat) : Int)
  else ((n % 2 ^ 32 : Nat) : Int) - 2 ^ 32

/-- The queue element `[task_ptr](){ (*task_ptr)(); }` (lines 65-67): `task_ptr`
is the address of the shared `std::packaged_task`, `func` the bound call it wraps
(line 57). -/
structure Task (V E : Type) where
  task_ptr : Nat
  func : Unit → Outcome V E

/-- Control point of one worker thread (the lambda of lines 84-103). -/
inductive Worker (V E : Type) where
  /-- At the top of the loop, on `cv_.wait` (lines 85-91). -/
  | waiting
  /-- Lock released with `task` moved out of the queue, before line 99. -/
  | taken (task : Task V E)
  /-- After `++task_run_count_`, inside `task()` (line 100). -/
  | running (task : Task V E)
  /-- The call `task()` came back, before `--task_run_count_` (line 101). -/
  | finished (task : Task V E)
  /-- The lambda executed `return` (line 94). -/
  | returned
  /-- An exception left `task()` and so the thread function (`std::terminate`). -/
  | aborted (task : Task V E)

/-- Control point of the manager thread (lines 107-124). -/
inductive Manager where
  /-- About to evaluate `!is_exit_` (line 108). -/
  | loopTest
  /-- In the loop body before the locked block (lines 109-111). -/
  | sleeping
  /-- The locked block is done, before the test of line 117. -/
  | sampled (threads_num tasks_num : Int)
  /-- Before the test of line 120. -/
  | grown (threads_num : Int)
  /-- The loop was left. -/
  | returned
  deriving DecidableEq, Repr

/-- Control point of the thread running `~ThreadPool` (lines 26-35). -/
inductive Destructor where
  /-- The destructor was not entered. -/
  | notStarted
  /-- After `is_exit_ = true` (line 27), in `manager_th_.join()`. -/
  | exitSet
  /-- After `cv_.notify_all()` (line 29), in the loop of joins. -/
  | managerJoined
  /-- Every `th.join()` came back (line 32). -/
  | workersJoined
  /-- After `worker_th_.clear()` (line 34). -/
  | cleared
  deriving DecidableEq, Repr

end ThreadPool

/-- The members of `class ThreadPool` (lines 74-80), the heap of
`std::packaged_task` shared states they point into, the control points of the
destructor and of the callers inside `commit`, and three history variables that
no transition reads. -/
structure ThreadPool (V E : Type) where
  /-- The vector `worker_th_`: one control point per registered thread. -/
  worker_th_ : List (ThreadPool.Worker V E)
  /-- The queue `tasks_`, head first. -/
  tasks_ : List (ThreadPool.Task V E)
  /-- The atomic `is_exit_`. -/
  is_exit_ : Bool
  /-- The atomic `task_run_count_`. -/
  task_run_count_ : Int
  /-- The thread `manager_th_`. -/
  manager_th_ : ThreadPool.Manager
  /-- Shared states of the packaged tasks, indexed by `task_ptr`: `none` until
  the task ran, then the stored outcome (what the future yields). -/
  shared : List (Option (ThreadPool.Outcome V E))
  /-- Where the destructor stands. -/
  dtor : ThreadPool.Destructor
  /-- The calls of `commit` that have passed the test of line 52 and have not yet
  entered the locked block of lines 63-68, each with its bound call. -/
  committing : List (Unit → ThreadPool.Outcome V E)
  /-- History: every task enqueued so far, in enqueue order. -/
  submitted : List (ThreadPool.Task V E)
  /-- History: every task popped so far, in pop order. -/
  dispatched : List (ThreadPool.Task V E)
  /-- History: every task whose call came back, in completion order. -/
  executed : List (ThreadPool.Task V E)

namespace ThreadPool

variable {V E : Type}

/-- The worker has left its loop (what `th.join()` waits for). -/
def Worker.isReturned : Worker V E → Bool
  | .returned => true
  | _ => false

/-- The worker is between `++task_run_count_` and `--task_run_count_`. -/
def Worker.isBusy : Worker V E → Bool
  | .running _ => true
  | .finished _ => true
  | .aborted _ => true
  | _ => false

/-- The worker is at the top of its loop. -/
def Worker.isWaiting : Worker V E → Bool
  | .waiting => true
  | _ => false

/-- An exception escaped this worker. -/
def Worker.isAborted : Worker V E → Bool
  | .aborted _ => true
  | _ => false

/-- The task a worker popped and whose call has not come back yet. -/
def Worker.held : Worker V E → Option (Task V E)
  | .taken t => some t
  | .running t => some t
  | .aborted t => some t
  | _ => none

/-- Tasks popped by some worker and not yet through their call. -/
def heldTasks (p : ThreadPool V E) : List (Task V E) :=
  p.worker_th_.filterMap Worker.held

/-- Body of `addThread` (lines 82-105) for a positive `size` given as a natural
number: each round tests `worker_th_.size() < THREADPOOL_MAX_NUM`, emplaces one
thread that starts at the top of the worker loop, and decrements `size`. -/
def addThreadLoop (p : ThreadPool V E) : Nat → ThreadPool V E
  | 0 => p
  | n + 1 =>
    if p.worker_th_.length < THREADPOOL_MAX_NUM then
      addThreadLoop { p with worker_th_ := p.worker_th_ ++ [Worker.waiting] } n
    else p

/-- The method `addThread(int size)` (lines 82-105); the loop runs only while `size > 0`. -/
def addThread (p : ThreadPool V E) (size : Int) : ThreadPool V E :=
  addThreadLoop p size.toNat

/-- The constructor `ThreadPool(int num)` (lines 20-23): `is_exit_(false)`,
`task_run_count_(0)`, `addThread(num)`, then the manager thread is started. -/
def construct (V E : Type) (num : Int) : ThreadPool V E :=
  addThread
    { worker_th_ := [], tasks_ := [], is_exit_ := false, task_run_count_ := 0,
      manager_th_ := Manager.loopTest, shared := [], dtor := Destructor.notStarted,
      committing := [], submitted := [], dispatched := [], executed := [] }
    num

/-- The method `taskRunCount()` (lines 43-45). -/
def taskRunCount (p : ThreadPool V E) : Int :=
  p.task_run_count_

/-- The message of the `std::runtime_error` thrown at line 53. -/
def stoppedMessage : String := "commit on ThreadPool is stopped."

/-- Lines 57-70 of `commit` for the bound call `func`: a fresh packaged task is
allocated (its shared state unsatisfied), the task that invokes it is emplaced
at the back of `tasks_`, and the future of the packaged task is returned. -/
def enqueue (p : ThreadPool V E) (func : Unit → Outcome V E) : Nat × ThreadPool V E :=
  let task_ptr := p.shared.length
  let task : Task V E := { task_ptr := task_ptr, func := func }
  (task_ptr,
    { p with
      shared := p.shared ++ [none],
      tasks_ := p.tasks_ ++ [task],
      submitted := p.submitted ++ [task] })

/-- The method `commit(f, args...)` (lines 51-71) run without another thread in
between.  The result is the thrown error or the returned future (the index of
its shared state), paired with the state the call leaves behind. -/
def commit {A : Type} (p : ThreadPool V E) (f : A → Outcome V E) (args : A) :
    Except String Nat × ThreadPool V E :=
  if p.is_exit_ then
    (Except.error stoppedMessage, p)
  else
    let func : Unit → Outcome V E := fun _ => f args
    let r := enqueue p func
    (Except.ok r.1, r.2)

/-- First half of a call of `commit`: the test of `is_exit_` (lines 52-54).  It
throws, or the call goes on towards the locked block. -/
def commitTest {A : Type} (p : ThreadPool V E) (f : A → Outcome V E) (args : A) :
    Except String Unit × ThreadPool V E :=
  if p.is_exit_ then
    (Except.error stoppedMessage, p)
  else
    (Except.ok (), { p with committing := p.committing ++ [fun _ => f args] })

/-- Second half of the `k`-th call of `commit` under way (lines 57-70). -/
def commitEnqueue (p : ThreadPool V E) (k : Nat) : Option (Nat × ThreadPool V E) :=
  match p.committing[k]? with
  | none => none
  | some func => some (enqueue { p with committing := p.committing.eraseIdx k } func)

/-- The call `(*task_ptr)()` of `std::packaged_task::operator()`: with a
shared state not yet satisfied it calls the stored function and stores what it
returned or raised, and comes back normally; otherwise it throws
`std::future_error`. -/
def Task.invoke (t : Task V E) (shared : List (Option (Outcome V E))) :
    Except Unit (List (Option (Outcome V E))) :=
  match shared[t.task_ptr]? with
  | some none => Except.ok (shared.set t.task_ptr (some (t.func ())))
  | _ => Except.error ()

/-- The predicate of `cv_.wait` (lines 89-91). -/
def waitPred (p : ThreadPool V E) : Bool :=
  p.is_exit_ || !p.tasks_.isEmpty

/-- The test of line 93. -/
def exitTest (p : ThreadPool V E) : Bool :=
  p.is_exit_ && p.tasks_.isEmpty

/-- The pair `tasks_.front()` / `tasks_.pop()` (lines 96-97); undefined on an
empty queue. -/
def frontPop (q : List (Task V E)) : Option (Task V E × List (Task V E)) :=
  match q with
  | [] => none
  | t :: rest => some (t, rest)

/-- One step of worker `i` (lines 85-102).  `none`: the step is not enabled
(no such worker, the wait predicate is false, or the thread is over). -/
def workerStep (p : ThreadPool V E) (i : Nat) : Option (ThreadPool V E) :=
  match p.worker_th_[i]? with
  | none => none
  | some Worker.waiting =>
    if waitPred p then
      if exitTest p then
        some { p with worker_th_ := p.worker_th_.set i Worker.returned }
      else
        match frontPop p.tasks_ with
        | none => none
        | some (task, rest) =>
          some { p with
            tasks_ := rest,
            worker_th_ := p.worker_th_.set i (Worker.taken task),
            dispatched := p.dispatched ++ [task] }
    else none
  | some (Worker.taken task) =>
    some { p with
      task_run_count_ := p.task_run_count_ + 1,
      worker_th_ := p.worker_th_.set i (Worker.running task) }
  | some (Worker.running task) =>
    match task.invoke p.shared with
    | Except.ok shared' =>
      some { p with
        shared := shared',
        worker_th_ := p.worker_th_.set i (Worker.finished task),
        executed := p.executed ++ [task] }
    | Except.error _ =>
      some { p with worker_th_ := p.worker_th_.set i (Worker.aborted task) }
  | some (Worker.finished _) =>
    some { p with
      task_run_count_ := p.task_run_count_ - 1,
      worker_th_ := p.worker_th_.set i Worker.waiting }
  | some Worker.returned => none
  | some (Worker.aborted _) => none

/-- The call `cv_.notify_one()`: it makes one thread blocked in `cv_.wait`
re-check its predicate and touches no member. -/
def notify_one (p : ThreadPool V E) : ThreadPool V E := p

/-- The call `cv_.notify_all()`. -/
def notify_all (p : ThreadPool V E) : ThreadPool V E := p

/-- The grow rule (lines 117-119) on the sampled `threads_num`, `tasks_num`. -/
def growRule (p : ThreadPool V E) (threads_num tasks_num : Int) : ThreadPool V E :=
  if tasks_num > threads_num ∧ threads_num < (THREADPOOL_MAX_NUM : Int) then addThread p 1
  else p

/-- The shrink-signal rule (lines 120-122) on the sampled `threads_num`. -/
def signalRule (p : ThreadPool V E) (threads_num : Int) : ThreadPool V E :=
  if p.task_run_count_ * 2 < threads_num ∧ threads_num > 1 then notify_one p
  else p

/-- One step of the manager thread (lines 107-124). -/
def managerStep (p : ThreadPool V E) : Option (ThreadPool V E) :=
  match p.manager_th_ with
  | Manager.loopTest =>
    if !p.is_exit_ then some { p with manager_th_ := Manager.sleeping }
    else some { p with manager_th_ := Manager.returned }
  | Manager.sleeping =>
    some { p with
      manager_th_ := Manager.sampled (toInt p.worker_th_.length) (toInt p.tasks_.length) }
  | Manager.sampled threads_num tasks_num =>
    some { growRule p threads_num tasks_num with manager_th_ := Manager.grown threads_num }
  | Manager.grown threads_num =>
    some { signalRule p threads_num with manager_th_ := Manager.loopTest }
  | Manager.returned => none

/-- One pass through the body of the manager loop (lines 109-122) with no other
thread stepping in between, from a state where the manager is `sleeping`. -/
def managerTick (p : ThreadPool V E) : ThreadPool V E :=
  let threads_num := toInt p.worker_th_.length
  let tasks_num := toInt p.tasks_.length
  let p₁ := growRule p threads_num tasks_num
  { signalRule p₁ threads_num with manager_th_ := Manager.loopTest }

/-- One step of the destructor (lines 26-35); a `join` is enabled once the joined
thread is over. -/
def destroyStep (p : ThreadPool V E) : Option (ThreadPool V E) :=
  match p.dtor with
  | Destructor.notStarted =>
    some { p with is_exit_ := true, dtor := Destructor.exitSet }
  | Destructor.exitSet =>
    if p.manager_th_ = Manager.returned then
      some { notify_all p with dtor := Destructor.managerJoined }
    else none
  | Destructor.managerJoined =>
    if p.worker_th_.all Worker.isReturned then
      some { p with dtor := Destructor.workersJoined }
    else none
  | Destructor.workersJoined =>
    some { p with worker_th_ := [], dtor := Destructor.cleared }
  | Destructor.cleared => none

/-- One atomic step of one thread. -/
inductive Action (V E : Type) : Type 1 where
  /-- Some caller enters `commit(f, args)` and tests `is_exit_`. -/
  | commitTest {A : Type} (f : A → Outcome V E) (args : A)
  /-- The `k`-th call of `commit` under way enqueues its task and returns. -/
  | commitEnqueue (k : Nat)
  /-- Worker `i` moves. -/
  | worker (i : Nat)
  /-- The manager moves. -/
  | manager
  /-- The destructor moves. -/
  | destroy

/-- The action is a step of a worker, the manager or the destructor. -/
def Action.isQuiet : Action V E → Bool
  | Action.commitTest _ _ => false
  | Action.commitEnqueue _ => false
  | _ => true

/-- The effect of one action; `none` when it is not enabled.  A call of `commit`
needs a pool whose destructor has not finished; when it throws the state stays. -/
def step (p : ThreadPool V E) : Action V E → Option (ThreadPool V E)
  | Action.commitTest f args =>
    if p.dtor = Destructor.cleared then none else some (commitTest p f args).2
  | Action.commitEnqueue k =>
    if p.dtor = Destructor.cleared then none else (commitEnqueue p k).map Prod.snd
  | Action.worker i => workerStep p i
  | Action.manager => managerStep p
  | Action.destroy => destroyStep p

/-- Runs a schedule, the first action first. -/
def run (p : ThreadPool V E) : List (Action V E) → Option (ThreadPool V E)
  | [] => some p
  | a :: rest =>
    match step p a with
    | none => none
    | some p' => run p' rest

/-- The states some schedule reaches from some construction. -/
def Reachable (p : ThreadPool V E) : Prop :=
  ∃ (num : Int) (acts : List (Action V E)), run (construct V E num) acts = some p

end ThreadPool

/-! ## The invariant, two measures, and sample executions -/

namespace ThreadPool

variable {V E : Type}

/-- Tasks that left `commit` and whose call has not come back: held by a worker
or still queued. -/
def pendingTasks (p : ThreadPool V E) : List (Task V E) :=
  heldTasks p ++ p.tasks_

/-- The inductive invariant of the transition system. -/
structure Inv (p : ThreadPool V E) : Prop where
  ptrs : p.submitted.map Task.task_ptr = List.range p.shared.length
  size_le : p.worker_th_.length ≤ THREADPOOL_MAX_NUM
  count_eq : p.task_run_count_ = ((p.worker_th_.countP Worker.isBusy : Nat) : Int)
  fifo : p.dispatched ++ p.tasks_ = p.submitted
  held_perm : (p.executed ++ heldTasks p).Perm p.dispatched
  no_abort : ∀ w ∈ p.worker_th_, w.isAborted = false
  pending_fresh : ∀ t ∈ pendingTasks p, p.shared[t.task_ptr]? = some none
  pending_nodup : ((pendingTasks p).map Task.task_ptr).Nodup
  executed_set : ∀ t ∈ p.executed, p.shared[t.task_ptr]? = some (some (t.func ()))
  returned_exit : (∃ w ∈ p.worker_th_, w.isReturned = true) → p.is_exit_ = true
  exit_iff : p.is_exit_ = false ↔ p.dtor = Destructor.notStarted
  mgr_alive : p.manager_th_ ≠ Manager.returned →
    p.dtor = Destructor.notStarted ∨ p.dtor = Destructor.exitSet
  mgr_sampled : ∀ W Q, p.manager_th_ = Manager.sampled W Q → W = (p.worker_th_.length : Int)
  joined : p.dtor = Destructor.workersJoined → ∀ w ∈ p.worker_th_, w.isReturned = true
  cleared : p.dtor = Destructor.cleared → p.worker_th_ = []

/-- How far a worker is from the top of its loop. -/
def Worker.stage : Worker V E → Nat
  | .returned => 0
  | .aborted _ => 0
  | .waiting => 1
  | .finished _ => 2
  | .running _ => 3
  | .taken _ => 4

/-- How far the manager is from its loop test. -/
def Manager.stage : Manager → Nat
  | .returned => 0
  | .loopTest => 1
  | .grown _ => 2
  | .sampled _ _ => 3
  | .sleeping => 4

/-- A work item that raises on `0` and returns the double otherwise. -/
def sampleWork (n : Nat) : Outcome Nat Nat :=
  if n = 0 then Outcome.raised 7 else Outcome.returned (2 * n)

/-- The state a schedule leads to from `construct num` (the initial state when
the schedule cannot run). -/
def stateAfter (num : Int) (acts : List (Action Nat Nat)) : ThreadPool Nat Nat :=
  (run (construct Nat Nat num) acts).getD (construct Nat Nat num)

/-- One call `commit(sampleWork, n)` from its test to its return, no other thread
in between and no other call under way. -/
def submit (n : Nat) : List (Action Nat Nat) :=
  [Action.commitTest sampleWork n, Action.commitEnqueue 0]

/-- The call `commit(sampleWork, 3)`, `k` times in a row. -/
def submits : Nat → List (Action Nat Nat)
  | 0 => []
  | k + 1 => submit 3 ++ submits k

/-- A burst: 15 initial workers, 17 submissions, two manager ticks, three
worker steps. -/
def burstSchedule : List (Action Nat Nat) :=
  submits 17 ++
    [Action.manager, Action.manager, Action.manager, Action.manager,
     Action.worker 0, Action.worker 0, Action.worker 15,
     Action.manager, Action.manager, Action.manager, Action.manager]

/-- The state after the burst. -/
def burstState : ThreadPool Nat Nat := stateAfter 15 burstSchedule

/-- After two submissions the destructor has set `is_exit_` (pool of 2 workers). -/
def stoppedState : ThreadPool Nat Nat :=
  stateAfter 2 (submit 1 ++ submit 0 ++ [Action.destroy])

/-- One worker, busy with a first task while `A`, `B`, `C` (futures 1, 2, 3) are
submitted; then the worker finishes and is free again. -/
def fifoSchedule : List (Action Nat Nat) :=
  submit 9 ++ [Action.worker 0, Action.worker 0] ++ submit 1 ++ submit 2 ++ submit 3 ++
    [Action.worker 0, Action.worker 0]

/-- The state after `fifoSchedule`: queue `A, B, C`, worker 0 waiting. -/
def fifoState : ThreadPool Nat Nat := stateAfter 1 fifoSchedule

/-- Two workers, three submissions, then the destructor sets `is_exit_`: shutdown
is requested with 3 tasks pending. -/
def shutdownSchedule : List (Action Nat Nat) :=
  submit 1 ++ submit 0 ++ submit 2 ++ [Action.destroy]

/-- The state after `shutdownSchedule`. -/
def shutdownState : ThreadPool Nat Nat := stateAfter 2 shutdownSchedule

/-- A pool constructed with 0 workers: one submission, then the destructor runs
to the end of its joins while the manager, still at its loop test, sees
`is_exit_` and leaves. -/
def lostSchedule : List (Action Nat Nat) :=
  submit 1 ++ [Action.destroy, Action.manager, Action.destroy, Action.destroy]

/-- The state after `lostSchedule`. -/
def lostState : ThreadPool Nat Nat := stateAfter 0 lostSchedule

/-- A pool of 1 worker and a call of `commit` that passes its test just before
the destructor sets `is_exit_`: manager and worker leave, then the call enqueues
its task, then the joins come back. -/
def lateSchedule : List (Action Nat Nat) :=
  [Action.commitTest sampleWork 1, Action.destroy, Action.manager, Action.destroy,
   Action.worker 0, Action.commitEnqueue 0, Action.destroy]

/-- The state after `lateSchedule`. -/
def lateState : ThreadPool Nat Nat := stateAfter 1 lateSchedule

/-- A pool of 3 workers with 5 queued tasks whose manager is about to sample. -/
def sleepingState : ThreadPool Nat Nat :=
  stateAfter 3 (submits 5 ++ [Action.manager])

end ThreadPool

/-! ## Lists: replacing one entry -/

namespace ThreadPool

variable {V E : Type}

theorem set_of_getElem?_eq {α : Type} {a : α} :
    ∀ {l : List α} {i : Nat}, l[i]? = some a → l.set i a = l := by
  intro l
  induction l with
  | nil => intro i _; rfl
  | cons x xs ih =>
    intro i h
    cases i with
    | zero =>
      simp only [List.getElem?_cons_zero, Option.some.injEq] at h
      subst h
      rfl
    | succ j =>
      simp only [List.getElem?_cons_succ] at h
      simp only [List.set_cons_succ, ih h]

theorem countP_set_add {α : Type} (q : α → Bool) (b : α) :
    ∀ (l : List α) (i : Nat) (a : α), l[i]? = some a →
      List.countP q (l.set i b) + (if q a then 1 else 0)
        = List.countP q l + (if q b then 1 else 0) := by
  intro l
  induction l with
  | nil => intro i a h; simp at h
  | cons x xs ih =>
    intro i a h
    cases i with
    | zero =>
      simp only [List.getElem?_cons_zero, Option.some.injEq] at h
      subst h
      simp only [List.set_cons_zero, List.countP_cons]
      omega
    | succ j =>
      simp only [List.getElem?_cons_succ] at h
      have := ih j a h
      simp only [List.set_cons_succ, List.countP_cons]
      omega

theorem filterMap_set_perm {α β : Type} (g : α → Option β) (b : α) :
    ∀ (l : List α) (i : Nat) (a : α), l[i]? = some a →
      ((g a).toList ++ (l.set i b).filterMap g).Perm ((g b).toList ++ l.filterMap g) := by
  intro l
  induction l with
  | nil => intro i a h; simp at h
  | cons x xs ih =>
    intro i a h
    cases i with
    | zero =>
      simp only [List.getElem?_cons_zero, Option.some.injEq] at h
      subst h
      simp only [List.set_cons_zero, List.filterMap_cons]
      cases hx : g x <;> cases hb : g b <;> simp [List.perm_comm, List.Perm.swap]
    | succ j =>
      simp only [List.getElem?_cons_succ] at h
      have := ih j a h
      simp only [List.set_cons_succ, List.filterMap_cons]
      cases hx : g x with
      | none => simpa using this
      | some y =>
        simp only
        refine (List.perm_middle).trans ?_
        refine List.Perm.trans ?_ (List.perm_middle).symm
        exact List.Perm.cons y this

end ThreadPool

/-! ## What `addThread` does -/

namespace ThreadPool

variable {V E : Type}

theorem addThreadLoop_eq (n : Nat) : ∀ p : ThreadPool V E,
    addThreadLoop p n =
      { p with worker_th_ := p.worker_th_ ++
          List.replicate (min n (THREADPOOL_MAX_NUM - p.worker_th_.length)) Worker.waiting } := by
  induction n with
  | zero => intro p; simp [addThreadLoop]
  | succ k ih =>
    intro p
    unfold addThreadLoop
    split
    next h =>
      rw [ih]
      have e : min (k + 1) (THREADPOOL_MAX_NUM - p.worker_th_.length)
          = min k (THREADPOOL_MAX_NUM - (p.worker_th_.length + 1)) + 1 := by omega
      simp [e, List.replicate_succ]
    next h =>
      have e : min (k + 1) (THREADPOOL_MAX_NUM - p.worker_th_.length) = 0 := by omega
      simp [e]

theorem addThread_eq (p : ThreadPool V E) (size : Int) :
    addThread p size =
      { p with worker_th_ := p.worker_th_ ++
          List.replicate (min size.toNat (THREADPOOL_MAX_NUM - p.worker_th_.length)) Worker.waiting } :=
  addThreadLoop_eq size.toNat p

theorem toInt_of_lt (n : Nat) (h : n < 2 ^ 31) : toInt n = (n : Int) := by
  have h1 : n % 2 ^ 32 = n := Nat.mod_eq_of_lt (by omega)
  unfold toInt
  rw [h1, if_pos h]

theorem filterMap_held_replicate (k : Nat) :
    (List.replicate k (Worker.waiting : Worker V E)).filterMap Worker.held = [] := by
  induction k with
  | zero => rfl
  | succ k ih => simp [List.replicate_succ, Worker.held, ih]

theorem countP_busy_replicate (k : Nat) :
    (List.replicate k (Worker.waiting : Worker V E)).countP Worker.isBusy = 0 := by
  induction k with
  | zero => rfl
  | succ k ih => simp [List.replicate_succ, Worker.isBusy, ih]

theorem filterMap_held_of_returned :
    ∀ l : List (Worker V E), (∀ w ∈ l, w.isReturned = true) → l.filterMap Worker.held = [] := by
  intro l
  induction l with
  | nil => intro _; rfl
  | cons x xs ih =>
    intro h
    have hx := h x (List.mem_cons_self _ _)
    have hxs := ih (fun w hw => h w (List.mem_cons_of_mem _ hw))
    cases x <;> simp_all [Worker.isReturned, Worker.held]

theorem countP_busy_of_returned :
    ∀ l : List (Worker V E), (∀ w ∈ l, w.isReturned = true) → l.countP Worker.isBusy = 0 := by
  intro l
  induction l with
  | nil => intro _; rfl
  | cons x xs ih =>
    intro h
    have hx := h x (List.mem_cons_self _ _)
    have hxs := ih (fun w hw => h w (List.mem_cons_of_mem _ hw))
    cases x <;> simp_all [Worker.isReturned, Worker.isBusy]

end ThreadPool

/-! ## The invariant of the pool -/

namespace ThreadPool

variable {V E : Type}

/-- Appending fresh waiting workers below the bound keeps the invariant, as long
as the destructor is not past its first join. -/
theorem Inv.append_waiting {p : ThreadPool V E} (h : Inv p) (k : Nat)
    (hk : p.worker_th_.length + k ≤ THREADPOOL_MAX_NUM)
    (hd : p.dtor = Destructor.notStarted ∨ p.dtor = Destructor.exitSet)
    (hm : ∀ W Q, p.manager_th_ ≠ Manager.sampled W Q) :
    Inv { p with worker_th_ := p.worker_th_ ++ List.replicate k Worker.waiting } := by
  have hheld : heldTasks { p with worker_th_ := p.worker_th_ ++ List.replicate k Worker.waiting }
      = heldTasks p := by
    simp [heldTasks, filterMap_held_replicate]
  have hpend : pendingTasks { p with worker_th_ := p.worker_th_ ++ List.replicate k Worker.waiting }
      = pendingTasks p := by
    simp only [pendingTasks, hheld]
  refine ⟨h.ptrs, ?_, ?_, h.fifo, ?_, ?_, ?_, ?_, h.executed_set, ?_, h.exit_iff, h.mgr_alive, ?_, ?_, ?_⟩
  · simpa using hk
  · simpa [countP_busy_replicate] using h.count_eq
  · rw [hheld]; exact h.held_perm
  · intro w hw
    rcases List.mem_append.1 hw with hw | hw
    · exact h.no_abort w hw
    · rw [List.eq_of_mem_replicate hw]; rfl
  · rw [hpend]; exact h.pending_fresh
  · rw [hpend]; exact h.pending_nodup
  · rintro ⟨w, hw, hr⟩
    rcases List.mem_append.1 hw with hw | hw
    · exact h.returned_exit ⟨w, hw, hr⟩
    · rw [List.eq_of_mem_replicate hw] at hr; cases hr
  · intro W Q hWQ
    exact absurd hWQ (hm W Q)
  · intro hj
    rcases hd with hd | hd <;> simp_all
  · intro hc
    rcases hd with hd | hd <;> simp_all

/-- The constructor establishes the invariant. -/
theorem inv_construct (num : Int) : Inv (construct V E num) := by
  unfold construct
  rw [addThread_eq]
  refine Inv.append_waiting (p := _) ?_ _ ?_ (Or.inl rfl) ?_
  · refine ⟨?_, ?_, ?_, ?_, ?_, ?_, ?_, ?_, ?_, ?_, ?_, ?_, ?_, ?_, ?_⟩ <;>
      simp [pendingTasks, heldTasks, THREADPOOL_MAX_NUM]
  · simp only [List.length_nil]; omega
  · intro W Q; simp

theorem commit_stopped {A : Type} (p : ThreadPool V E) (f : A → Outcome V E) (args : A)
    (h : p.is_exit_ = true) : commit p f args = (Except.error stoppedMessage, p) := by
  simp [commit, h]

theorem commit_running {A : Type} (p : ThreadPool V E) (f : A → Outcome V E) (args : A)
    (h : p.is_exit_ = false) :
    commit p f args =
      (Except.ok p.shared.length,
        { p with
          shared := p.shared ++ [none],
          tasks_ := p.tasks_ ++ [{ task_ptr := p.shared.length, func := fun _ => f args }],
          submitted := p.submitted ++ [{ task_ptr := p.shared.length, func := fun _ => f args }] }) := by
  simp [commit, enqueue, h]

theorem Inv.set_committing {p : ThreadPool V E} (h : Inv p)
    (c : List (Unit → Outcome V E)) : Inv { p with committing := c } :=
  ⟨h.ptrs, h.size_le, h.count_eq, h.fifo, h.held_perm, h.no_abort, h.pending_fresh,
    h.pending_nodup, h.executed_set, h.returned_exit, h.exit_iff, h.mgr_alive, h.mgr_sampled,
    h.joined, h.cleared⟩

/-- The locked block of `commit` keeps the invariant. -/
theorem inv_enqueue {p : ThreadPool V E} (h : Inv p) (func : Unit → Outcome V E) :
    Inv (enqueue p func).2 := by
  have hlt : ∀ t ∈ pendingTasks p, t.task_ptr < p.shared.length := by
    intro t ht
    have := h.pending_fresh t ht
    by_contra hc
    rw [List.getElem?_eq_none (by omega)] at this
    cases this
  unfold enqueue
  refine ⟨?_, h.size_le, h.count_eq, ?_, h.held_perm, h.no_abort, ?_, ?_, ?_, h.returned_exit,
    h.exit_iff, h.mgr_alive, h.mgr_sampled, h.joined, h.cleared⟩
  · simp [h.ptrs, List.range_succ]
  · simp only [← List.append_assoc, h.fifo]
  · intro t ht
    simp only [pendingTasks, heldTasks, List.mem_append, List.mem_singleton] at ht
    rcases ht with ht | ht | ht
    · have h1 := h.pending_fresh t (List.mem_append_left _ ht)
      have h2 := hlt t (List.mem_append_left _ ht)
      simpa [List.getElem?_append_left h2] using h1
    · have h1 := h.pending_fresh t (List.mem_append_right _ ht)
      have h2 := hlt t (List.mem_append_right _ ht)
      simpa [List.getElem?_append_left h2] using h1
    · subst ht
      simp
  · show ((heldTasks p ++ (p.tasks_ ++ [_])).map Task.task_ptr).Nodup
    rw [← List.append_assoc, List.map_append, List.nodup_append]
    refine ⟨h.pending_nodup, by simp, ?_⟩
    intro a ha hb
    simp only [List.map_cons, List.map_nil, List.mem_singleton] at hb
    obtain ⟨t, ht, rfl⟩ := List.mem_map.1 ha
    have := hlt t ht
    omega
  · intro t ht
    have h1 := h.executed_set t ht
    have h2 : t.task_ptr < p.shared.length := by
      by_contra hc
      rw [List.getElem?_eq_none (by omega)] at h1
      cases h1
    simpa [List.getElem?_append_left h2] using h1

/-- The method `commit` keeps the invariant. -/
theorem inv_commit {A : Type} {p : ThreadPool V E} (h : Inv p) (f : A → Outcome V E) (args : A) :
    Inv (commit p f args).2 := by
  unfold commit
  split
  · exact h
  · exact inv_enqueue h _

/-- The test of `commit` keeps the invariant. -/
theorem inv_commitTest {A : Type} {p : ThreadPool V E} (h : Inv p) (f : A → Outcome V E)
    (args : A) : Inv (commitTest p f args).2 := by
  unfold commitTest
  split
  · exact h
  · exact h.set_committing _

/-- The second half of `commit` keeps the invariant. -/
theorem inv_commitEnqueue {p : ThreadPool V E} (h : Inv p) {k : Nat} {r : Nat × ThreadPool V E}
    (hs : commitEnqueue p k = some r) : Inv r.2 := by
  unfold commitEnqueue at hs
  split at hs
  · cases hs
  · cases hs
    exact inv_enqueue (h.set_committing _) _

end ThreadPool

/-! ## The manager and the destructor keep the invariant -/

namespace ThreadPool

variable {V E : Type}

theorem Inv.set_manager {p : ThreadPool V E} (h : Inv p) (m : Manager)
    (h1 : m ≠ Manager.returned → p.dtor = Destructor.notStarted ∨ p.dtor = Destructor.exitSet)
    (h2 : ∀ W Q, m = Manager.sampled W Q → W = (p.worker_th_.length : Int)) :
    Inv { p with manager_th_ := m } :=
  ⟨h.ptrs, h.size_le, h.count_eq, h.fifo, h.held_perm, h.no_abort, h.pending_fresh,
    h.pending_nodup, h.executed_set, h.returned_exit, h.exit_iff, h1, h2, h.joined, h.cleared⟩

theorem growRule_eq (p : ThreadPool V E) (W Q : Int) :
    growRule p W Q =
      { p with
        worker_th_ := p.worker_th_ ++ List.replicate
          (if Q > W ∧ W < (THREADPOOL_MAX_NUM : Int) then
            min 1 (THREADPOOL_MAX_NUM - p.worker_th_.length) else 0) Worker.waiting } := by
  unfold growRule
  split
  · rw [addThread_eq]; rfl
  · simp

/-- The manager thread keeps the invariant. -/
theorem inv_manager {p p' : ThreadPool V E} (h : Inv p) (hs : managerStep p = some p') :
    Inv p' := by
  unfold managerStep at hs
  split at hs
  next hm =>
    have ha := h.mgr_alive (by rw [hm]; simp)
    split at hs <;> cases hs
    · exact h.set_manager _ (fun _ => ha) (by simp)
    · exact h.set_manager _ (by simp) (by simp)
  next hm =>
    have ha := h.mgr_alive (by rw [hm]; simp)
    cases hs
    refine h.set_manager _ (fun _ => ha) ?_
    intro W Q hWQ
    cases hWQ
    exact toInt_of_lt _ (by have := h.size_le; simp only [THREADPOOL_MAX_NUM] at this; omega)
  next W Q hm =>
    have ha := h.mgr_alive (by rw [hm]; simp)
    cases hs
    rw [growRule_eq]
    refine Inv.append_waiting (p := { p with manager_th_ := Manager.grown W })
      (h.set_manager _ (fun _ => ha) (by simp)) _ ?_ ha (by simp)
    have := h.size_le
    show p.worker_th_.length + _ ≤ THREADPOOL_MAX_NUM
    split <;> omega
  next W hm =>
    have ha := h.mgr_alive (by rw [hm]; simp)
    cases hs
    have e : signalRule p W = p := by unfold signalRule notify_one; split <;> rfl
    rw [e]
    exact h.set_manager _ (fun _ => ha) (by simp)
  next hm => cases hs

/-- The destructor keeps the invariant. -/
theorem inv_destroy {p p' : ThreadPool V E} (h : Inv p) (hs : destroyStep p = some p') :
    Inv p' := by
  unfold destroyStep at hs
  split at hs
  next hd =>
    cases hs
    refine ⟨h.ptrs, h.size_le, h.count_eq, h.fifo, h.held_perm, h.no_abort, h.pending_fresh,
      h.pending_nodup, h.executed_set, ?_, by simp, fun _ => Or.inr rfl, h.mgr_sampled,
      by simp, by simp⟩
    intro _
    rfl
  next hd =>
    split at hs
    next hm =>
      cases hs
      have hex : p.is_exit_ = true := by
        cases he : p.is_exit_ with
        | true => rfl
        | false => have := h.exit_iff.1 he; rw [hd] at this; cases this
      refine ⟨h.ptrs, h.size_le, h.count_eq, h.fifo, h.held_perm, h.no_abort, h.pending_fresh,
        h.pending_nodup, h.executed_set, h.returned_exit, ?_, ?_, h.mgr_sampled,
        by simp [notify_all], by simp⟩
      · simp [notify_all, hex]
      · intro hne; exact absurd hm hne
    next => cases hs
  next hd =>
    split at hs
    next hall =>
      cases hs
      have hex : p.is_exit_ = true := by
        cases he : p.is_exit_ with
        | true => rfl
        | false => have := h.exit_iff.1 he; rw [hd] at this; cases this
      have hmr : p.manager_th_ = Manager.returned := by
        by_contra hne
        rcases h.mgr_alive hne with h1 | h1 <;> rw [hd] at h1 <;> cases h1
      refine ⟨h.ptrs, h.size_le, h.count_eq, h.fifo, h.held_perm, h.no_abort, h.pending_fresh,
        h.pending_nodup, h.executed_set, h.returned_exit, ?_, ?_, h.mgr_sampled,
        ?_, by simp⟩
      · simp [hex]
      · intro hne; exact absurd hmr hne
      · intro _ w hw
        exact List.all_eq_true.1 hall w hw
    next => cases hs
  next hd =>
    cases hs
    have hall := h.joined hd
    have hex : p.is_exit_ = true := by
      cases he : p.is_exit_ with
      | true => rfl
      | false => have := h.exit_iff.1 he; rw [hd] at this; cases this
    have hmr : p.manager_th_ = Manager.returned := by
      by_contra hne
      rcases h.mgr_alive hne with h1 | h1 <;> rw [hd] at h1 <;> cases h1
    have hh : heldTasks p = [] := filterMap_held_of_returned _ hall
    have hc : p.worker_th_.countP Worker.isBusy = 0 := countP_busy_of_returned _ hall
    refine ⟨h.ptrs, by simp, ?_, h.fifo, ?_, by simp, ?_, ?_, h.executed_set, by simp, ?_, ?_, ?_,
      by simp, by simp⟩
    · have := h.count_eq
      rw [hc] at this
      simpa using this
    · have := h.held_perm
      rw [hh] at this
      simpa [heldTasks] using this
    · have := h.pending_fresh
      simp only [pendingTasks, hh, List.nil_append] at this
      simpa [pendingTasks, heldTasks] using this
    · have := h.pending_nodup
      simp only [pendingTasks, hh, List.nil_append] at this
      simpa [pendingTasks, heldTasks] using this
    · simp [hex]
    · intro hne; exact absurd hmr hne
    · intro W Q hWQ
      exact absurd (hmr ▸ hWQ : Manager.returned = Manager.sampled W Q) (by simp)
  next hd => cases hs

end ThreadPool

/-! ## The workers keep the invariant -/

namespace ThreadPool

variable {V E : Type}

theorem mem_of_getElem?_eq {α : Type} {l : List α} {i : Nat} {a : α} (h : l[i]? = some a) :
    a ∈ l := by
  obtain ⟨hi, rfl⟩ := List.getElem?_eq_some.1 h
  exact List.getElem_mem hi

/-- A worker that can move was not joined yet. -/
theorem Inv.dtor_of_worker {p : ThreadPool V E} (h : Inv p) {i : Nat} {a : Worker V E}
    (hi : p.worker_th_[i]? = some a) (ha : a.isReturned = false) :
    p.dtor ≠ Destructor.workersJoined ∧ p.dtor ≠ Destructor.cleared := by
  constructor
  · intro hd
    have := h.joined hd a (mem_of_getElem?_eq hi)
    rw [ha] at this
    cases this
  · intro hd
    have := h.cleared hd
    rw [this] at hi
    simp at hi

/-- Replacing worker `i` by a worker that holds the same task, keeping the counter in step. -/
theorem Inv.set_worker {p : ThreadPool V E} (h : Inv p) {i : Nat} {a b : Worker V E}
    (hi : p.worker_th_[i]? = some a) (ha : a.isReturned = false)
    (hb : b.isReturned = true → p.is_exit_ = true)
    (hab : b.isAborted = false) (hheld : b.held = a.held) (c : Int)
    (hc : c + (if a.isBusy then 1 else 0) = p.task_run_count_ + (if b.isBusy then 1 else 0)) :
    Inv { p with worker_th_ := p.worker_th_.set i b, task_run_count_ := c } := by
  have hperm : (heldTasks { p with worker_th_ := p.worker_th_.set i b, task_run_count_ := c }).Perm
      (heldTasks p) := by
    have := filterMap_set_perm Worker.held b p.worker_th_ i a hi
    rw [hheld] at this
    exact (List.perm_append_left_iff _).1 this
  have hpend : (pendingTasks { p with worker_th_ := p.worker_th_.set i b, task_run_count_ := c }).Perm
      (pendingTasks p) := List.Perm.append_right _ hperm
  obtain ⟨hd1, hd2⟩ := h.dtor_of_worker hi ha
  refine ⟨h.ptrs, ?_, ?_, h.fifo, ?_, ?_, ?_, ?_, h.executed_set, ?_, h.exit_iff, h.mgr_alive, ?_, ?_, ?_⟩
  · simpa using h.size_le
  · have h1 := countP_set_add Worker.isBusy b p.worker_th_ i a hi
    have h2 := h.count_eq
    show c = ((List.countP Worker.isBusy (p.worker_th_.set i b) : Nat) : Int)
    split_ifs at hc h1 <;> omega
  · exact (List.Perm.append_left _ hperm).trans h.held_perm
  · intro w hw
    rcases List.mem_or_eq_of_mem_set hw with hw | rfl
    · exact h.no_abort w hw
    · exact hab
  · intro t ht
    exact h.pending_fresh t (hpend.mem_iff.1 ht)
  · exact (hpend.map _).nodup_iff.2 h.pending_nodup
  · rintro ⟨w, hw, hr⟩
    rcases List.mem_or_eq_of_mem_set hw with hw | rfl
    · exact h.returned_exit ⟨w, hw, hr⟩
    · exact hb hr
  · intro W Q hWQ
    simpa using h.mgr_sampled W Q hWQ
  · intro hd; exact absurd hd hd1
  · intro hd; exact absurd hd hd2

/-- The pop of lines 96-97 by a waiting worker keeps the invariant. -/
theorem Inv.dequeue {p : ThreadPool V E} (h : Inv p) {i : Nat}
    (hi : p.worker_th_[i]? = some Worker.waiting) {t : Task V E} {rest : List (Task V E)}
    (hq : p.tasks_ = t :: rest) :
    Inv { p with
      tasks_ := rest,
      worker_th_ := p.worker_th_.set i (Worker.taken t),
      dispatched := p.dispatched ++ [t] } := by
  have hperm : (p.worker_th_.set i (Worker.taken t)).filterMap Worker.held |>.Perm
      (t :: heldTasks p) := by
    simpa [Worker.held] using
      filterMap_set_perm Worker.held (Worker.taken t) p.worker_th_ i Worker.waiting hi
  have hpend : ((p.worker_th_.set i (Worker.taken t)).filterMap Worker.held ++ rest).Perm
      (pendingTasks p) := by
    unfold pendingTasks
    rw [hq]
    exact (List.Perm.append_right _ hperm).trans (List.perm_middle).symm
  obtain ⟨hd1, hd2⟩ := h.dtor_of_worker hi rfl
  refine ⟨h.ptrs, ?_, ?_, ?_, ?_, ?_, ?_, ?_, h.executed_set, ?_, h.exit_iff, h.mgr_alive, ?_, ?_, ?_⟩
  · simpa using h.size_le
  · have h1 := countP_set_add Worker.isBusy (Worker.taken t) p.worker_th_ i Worker.waiting hi
    have h2 := h.count_eq
    show p.task_run_count_
      = ((List.countP Worker.isBusy (p.worker_th_.set i (Worker.taken t)) : Nat) : Int)
    simp only [Worker.isBusy] at h1
    simp only [Bool.false_eq_true, if_false, Nat.add_zero] at h1
    rw [h1]; exact h2
  · show (p.dispatched ++ [t]) ++ rest = p.submitted
    rw [← h.fifo, hq]; simp
  · show (p.executed ++ (p.worker_th_.set i (Worker.taken t)).filterMap Worker.held).Perm
      (p.dispatched ++ [t])
    refine (List.Perm.append_left _ hperm).trans ?_
    refine (List.perm_middle).trans ?_
    refine (List.perm_append_singleton _ _).symm.trans ?_
    exact List.Perm.append_right _ h.held_perm
  · intro w hw
    rcases List.mem_or_eq_of_mem_set hw with hw | rfl
    · exact h.no_abort w hw
    · rfl
  · intro t' ht'
    exact h.pending_fresh t' (hpend.mem_iff.1 ht')
  · exact (hpend.map _).nodup_iff.2 h.pending_nodup
  · rintro ⟨w, hw, hr⟩
    rcases List.mem_or_eq_of_mem_set hw with hw | rfl
    · exact h.returned_exit ⟨w, hw, hr⟩
    · cases hr
  · intro W Q hWQ
    simpa using h.mgr_sampled W Q hWQ
  · intro hd; exact absurd hd hd1
  · intro hd; exact absurd hd hd2

/-- The call of line 100 coming back keeps the invariant. -/
theorem Inv.complete {p : ThreadPool V E} (h : Inv p) {i : Nat} {t : Task V E}
    (hi : p.worker_th_[i]? = some (Worker.running t)) :
    Inv { p with
      shared := p.shared.set t.task_ptr (some (t.func ())),
      worker_th_ := p.worker_th_.set i (Worker.finished t),
      executed := p.executed ++ [t] } := by
  have hperm : (t :: (p.worker_th_.set i (Worker.finished t)).filterMap Worker.held).Perm
      (heldTasks p) := by
    simpa [Worker.held] using
      filterMap_set_perm Worker.held (Worker.finished t) p.worker_th_ i (Worker.running t) hi
  have hpend : (t :: ((p.worker_th_.set i (Worker.finished t)).filterMap Worker.held
      ++ p.tasks_)).Perm (pendingTasks p) :=
    List.Perm.append_right p.tasks_ hperm
  have htp : t ∈ pendingTasks p := hpend.mem_iff.1 (List.mem_cons_self _ _)
  have hfresh := h.pending_fresh t htp
  have hnd := (hpend.map Task.task_ptr).nodup_iff.2 h.pending_nodup
  rw [List.map_cons, List.nodup_cons] at hnd
  obtain ⟨hd1, hd2⟩ := h.dtor_of_worker hi rfl
  refine ⟨?_, ?_, ?_, h.fifo, ?_, ?_, ?_, ?_, ?_, ?_, h.exit_iff, h.mgr_alive, ?_, ?_, ?_⟩
  · show p.submitted.map Task.task_ptr
      = List.range (p.shared.set t.task_ptr (some (t.func ()))).length
    rw [List.length_set]
    exact h.ptrs
  · simpa using h.size_le
  · have h1 := countP_set_add Worker.isBusy (Worker.finished t) p.worker_th_ i (Worker.running t) hi
    have h2 := h.count_eq
    show p.task_run_count_
      = ((List.countP Worker.isBusy (p.worker_th_.set i (Worker.finished t)) : Nat) : Int)
    simp only [Worker.isBusy, if_true] at h1
    rw [Nat.add_right_cancel h1]; exact h2
  · show ((p.executed ++ [t]) ++ (p.worker_th_.set i (Worker.finished t)).filterMap Worker.held).Perm
      p.dispatched
    rw [List.append_assoc]
    exact (List.Perm.append_left _ hperm).trans h.held_perm
  · intro w hw
    rcases List.mem_or_eq_of_mem_set hw with hw | rfl
    · exact h.no_abort w hw
    · rfl
  · intro t' ht'
    have hne : t.task_ptr ≠ t'.task_ptr := by
      intro he
      exact hnd.1 (he ▸ List.mem_map_of_mem _ ht')
    show (p.shared.set t.task_ptr (some (t.func ())))[t'.task_ptr]? = some none
    rw [List.getElem?_set_ne hne]
    exact h.pending_fresh t' (hpend.mem_iff.1 (List.mem_cons_of_mem _ ht'))
  · exact hnd.2
  · intro t' ht'
    show (p.shared.set t.task_ptr (some (t.func ())))[t'.task_ptr]? = some (some (t'.func ()))
    rcases List.mem_append.1 ht' with ht' | ht'
    · have h1 := h.executed_set t' ht'
      have hne : t.task_ptr ≠ t'.task_ptr := by
        intro he
        rw [he, h1] at hfresh
        cases hfresh
      rw [List.getElem?_set_ne hne]
      exact h1
    · rw [List.mem_singleton] at ht'
      subst ht'
      have hlt : t'.task_ptr < p.shared.length := by
        by_contra hc
        rw [List.getElem?_eq_none (by omega)] at hfresh
        cases hfresh
      simp [List.getElem?_set_self, hlt]
  · rintro ⟨w, hw, hr⟩
    rcases List.mem_or_eq_of_mem_set hw with hw | rfl
    · exact h.returned_exit ⟨w, hw, hr⟩
    · cases hr
  · intro W Q hWQ
    simpa using h.mgr_sampled W Q hWQ
  · intro hd; exact absurd hd hd1
  · intro hd; exact absurd hd hd2

/-- A task held by a worker has an unsatisfied shared state, so its call comes back. -/
theorem Inv.invoke_running {p : ThreadPool V E} (h : Inv p) {i : Nat} {t : Task V E}
    (hi : p.worker_th_[i]? = some (Worker.running t)) :
    t.invoke p.shared = Except.ok (p.shared.set t.task_ptr (some (t.func ()))) := by
  have hm : t ∈ heldTasks p :=
    List.mem_filterMap.2 ⟨_, mem_of_getElem?_eq hi, rfl⟩
  have := h.pending_fresh t (List.mem_append_left _ hm)
  simp [Task.invoke, this]

/-- The worker threads keep the invariant. -/
theorem inv_worker {p p' : ThreadPool V E} (h : Inv p) (i : Nat)
    (hs : workerStep p i = some p') : Inv p' := by
  unfold workerStep at hs
  split at hs
  next => cases hs
  next hi =>
    split at hs
    next hw =>
      split at hs
      next he =>
        cases hs
        have he' : p.is_exit_ = true ∧ p.tasks_ = [] := by
          simpa [exitTest, List.isEmpty_iff] using he
        have := h.set_worker hi rfl (b := Worker.returned) (fun _ => he'.1) rfl rfl
          p.task_run_count_ rfl
        exact this
      next he =>
        split at hs
        next => cases hs
        next task rest hf =>
          cases hs
          have hq : p.tasks_ = task :: rest := by
            unfold frontPop at hf
            split at hf
            · cases hf
            · cases hf; assumption
          exact h.dequeue hi hq
    next => cases hs
  next task hi =>
    cases hs
    have := h.set_worker hi rfl (b := Worker.running task) (fun hr => by cases hr) rfl rfl
      (p.task_run_count_ + 1) (by simp [Worker.isBusy])
    exact this
  next task hi =>
    rw [h.invoke_running hi] at hs
    cases hs
    exact h.complete hi
  next task hi =>
    cases hs
    have := h.set_worker hi rfl (b := Worker.waiting) (fun hr => by cases hr) rfl rfl
      (p.task_run_count_ - 1) (by simp [Worker.isBusy])
    exact this
  next => cases hs
  next => cases hs

end ThreadPool

/-! ## Reachable states -/

namespace ThreadPool

variable {V E : Type}

/-- Every action keeps the invariant. -/
theorem inv_step {p p' : ThreadPool V E} (h : Inv p) (a : Action V E)
    (hs : step p a = some p') : Inv p' := by
  cases a with
  | commitTest f args =>
    simp only [step] at hs
    split at hs
    · cases hs
    · cases hs; exact inv_commitTest h f args
  | commitEnqueue k =>
    simp only [step] at hs
    split at hs
    · cases hs
    · cases hc : commitEnqueue p k with
      | none => rw [hc] at hs; cases hs
      | some r =>
        rw [hc] at hs
        cases hs
        exact inv_commitEnqueue h hc
  | worker i => exact inv_worker h i hs
  | manager => exact inv_manager h hs
  | destroy => exact inv_destroy h hs

/-- Every schedule keeps the invariant. -/
theorem inv_run (acts : List (Action V E)) :
    ∀ {p p' : ThreadPool V E}, Inv p → run p acts = some p' → Inv p' := by
  induction acts with
  | nil =>
    intro p p' h hr
    cases hr
    exact h
  | cons a rest ih =>
    intro p p' h hr
    unfold run at hr
    split at hr
    · cases hr
    next q hq => exact ih (inv_step h a hq) hr

/-- The invariant holds in every reachable state. -/
theorem inv_reachable {p : ThreadPool V E} (h : Reachable p) : Inv p := by
  obtain ⟨num, acts, hr⟩ := h
  exact inv_run acts (inv_construct num) hr

theorem run_append (a b : List (Action V E)) :
    ∀ {p q r : ThreadPool V E}, run p a = some q → run q b = some r → run p (a ++ b) = some r := by
  induction a with
  | nil =>
    intro p q r h1 h2
    cases h1
    exact h2
  | cons x xs ih =>
    intro p q r h1 h2
    unfold run at h1
    split at h1
    · cases h1
    next s hs =>
      show run p (x :: (xs ++ b)) = some r
      unfold run
      rw [hs]
      exact ih h1 h2

/-- A state reached from a reachable state is reachable. -/
theorem Reachable.run {p q : ThreadPool V E} (h : Reachable p) (acts : List (Action V E))
    (hr : ThreadPool.run p acts = some q) : Reachable q := by
  obtain ⟨num, a, ha⟩ := h
  exact ⟨num, a ++ acts, run_append a acts ha hr⟩

end ThreadPool

/-! ## How one step changes the queue and the histories -/

namespace ThreadPool

variable {V E : Type}

theorem signalRule_eq (p : ThreadPool V E) (W : Int) : signalRule p W = p := by
  unfold signalRule notify_one
  split <;> rfl

/-- What a manager step changes: only the registry (by appending waiting workers)
and the control point of the manager. -/
theorem managerStep_fields {p p' : ThreadPool V E} (hs : managerStep p = some p') :
    p'.tasks_ = p.tasks_ ∧ p'.is_exit_ = p.is_exit_ ∧ p'.task_run_count_ = p.task_run_count_ ∧
      p'.submitted = p.submitted ∧ p'.dispatched = p.dispatched ∧ p'.executed = p.executed ∧
      p'.shared = p.shared ∧ p'.dtor = p.dtor ∧ p'.committing = p.committing ∧
      ∃ k, p'.worker_th_ = p.worker_th_ ++ List.replicate k Worker.waiting := by
  unfold managerStep at hs
  split at hs
  · split at hs <;> cases hs <;> exact ⟨rfl, rfl, rfl, rfl, rfl, rfl, rfl, rfl, rfl, 0, by simp⟩
  · cases hs; exact ⟨rfl, rfl, rfl, rfl, rfl, rfl, rfl, rfl, rfl, 0, by simp⟩
  · cases hs
    rw [growRule_eq]
    exact ⟨rfl, rfl, rfl, rfl, rfl, rfl, rfl, rfl, rfl, _, rfl⟩
  · cases hs
    rw [signalRule_eq]
    exact ⟨rfl, rfl, rfl, rfl, rfl, rfl, rfl, rfl, rfl, 0, by simp⟩
  · cases hs

/-- What a destructor step changes: never the queue, a history or a call of
`commit` under way; the flag stays set; and the registry is kept until the last
step empties it. -/
theorem destroyStep_fields {p p' : ThreadPool V E} (hs : destroyStep p = some p') :
    p'.tasks_ = p.tasks_ ∧ p'.submitted = p.submitted ∧ p'.dispatched = p.dispatched ∧
      p'.executed = p.executed ∧ p'.shared = p.shared ∧ p'.committing = p.committing ∧
      (p.is_exit_ = true → p'.is_exit_ = true) ∧
      ((p'.worker_th_ = p.worker_th_ ∧ p.dtor ≠ Destructor.cleared) ∨
        (p'.worker_th_ = [] ∧ p'.dtor = Destructor.cleared)) := by
  unfold destroyStep at hs
  split at hs
  next hd =>
    cases hs
    exact ⟨rfl, rfl, rfl, rfl, rfl, rfl, fun _ => rfl, Or.inl ⟨rfl, by rw [hd]; simp⟩⟩
  next hd =>
    split at hs <;> cases hs
    exact ⟨rfl, rfl, rfl, rfl, rfl, rfl, id, Or.inl ⟨rfl, by rw [hd]; simp⟩⟩
  next hd =>
    split at hs <;> cases hs
    exact ⟨rfl, rfl, rfl, rfl, rfl, rfl, id, Or.inl ⟨rfl, by rw [hd]; simp⟩⟩
  next hd =>
    cases hs
    exact ⟨rfl, rfl, rfl, rfl, rfl, rfl, id, Or.inr ⟨rfl, rfl⟩⟩
  next => cases hs

/-- What a worker step changes outside the queue: the control point of that
worker; it ends in `returned` only from a stopped pool with an empty queue. -/
theorem workerStep_shape {p p' : ThreadPool V E} {i : Nat} (hs : workerStep p i = some p') :
    ∃ b, p'.worker_th_ = p.worker_th_.set i b ∧ p'.is_exit_ = p.is_exit_ ∧
      p'.dtor = p.dtor ∧ p'.committing = p.committing ∧
      (b.isReturned = true → p.is_exit_ = true ∧ p.tasks_ = [] ∧ p'.tasks_ = []) := by
  unfold workerStep at hs
  split at hs
  · cases hs
  · split at hs
    · split at hs
      next he =>
        cases hs
        have he' : p.is_exit_ = true ∧ p.tasks_ = [] := by
          simpa [exitTest, List.isEmpty_iff] using he
        exact ⟨_, rfl, rfl, rfl, rfl, fun _ => ⟨he'.1, he'.2, he'.2⟩⟩
      · split at hs
        · cases hs
        · cases hs
          exact ⟨_, rfl, rfl, rfl, rfl, fun hr => by cases hr⟩
    · cases hs
  · cases hs; exact ⟨_, rfl, rfl, rfl, rfl, fun hr => by cases hr⟩
  · split at hs <;> cases hs <;> exact ⟨_, rfl, rfl, rfl, rfl, fun hr => by cases hr⟩
  · cases hs; exact ⟨_, rfl, rfl, rfl, rfl, fun hr => by cases hr⟩
  · cases hs
  · cases hs

/-- What a worker step changes in the queue: nothing, or it pops the head and
records it as dispatched. -/
theorem workerStep_history {p p' : ThreadPool V E} {i : Nat} (hs : workerStep p i = some p') :
    p'.submitted = p.submitted ∧
      ((p'.tasks_ = p.tasks_ ∧ p'.dispatched = p.dispatched) ∨
        ∃ t, p.tasks_ = t :: p'.tasks_ ∧ p'.dispatched = p.dispatched ++ [t]) := by
  unfold workerStep at hs
  split at hs
  · cases hs
  · split at hs
    · split at hs
      · cases hs; exact ⟨rfl, Or.inl ⟨rfl, rfl⟩⟩
      · split at hs
        · cases hs
        next task rest hf =>
          cases hs
          have hq : p.tasks_ = task :: rest := by
            unfold frontPop at hf
            split at hf
            · cases hf
            · cases hf; assumption
          exact ⟨rfl, Or.inr ⟨task, hq, rfl⟩⟩
    · cases hs
  · cases hs; exact ⟨rfl, Or.inl ⟨rfl, rfl⟩⟩
  · split at hs <;> cases hs <;> exact ⟨rfl, Or.inl ⟨rfl, rfl⟩⟩
  · cases hs; exact ⟨rfl, Or.inl ⟨rfl, rfl⟩⟩
  · cases hs
  · cases hs

/-- One step leaves queue and histories alone, or enqueues one task at the tail
and records it as submitted, or pops the head and records it as dispatched. -/
theorem step_history {p p' : ThreadPool V E} (a : Action V E) (hs : step p a = some p') :
    (p'.tasks_ = p.tasks_ ∧ p'.submitted = p.submitted ∧ p'.dispatched = p.dispatched) ∨
      (∃ t, p'.tasks_ = p.tasks_ ++ [t] ∧ p'.submitted = p.submitted ++ [t] ∧
        p'.dispatched = p.dispatched) ∨
      (∃ t, p.tasks_ = t :: p'.tasks_ ∧ p'.submitted = p.submitted ∧
        p'.dispatched = p.dispatched ++ [t]) := by
  cases a with
  | commitTest f args =>
    simp only [step] at hs
    split at hs
    · cases hs
    · cases hs
      unfold commitTest
      split <;> exact Or.inl ⟨rfl, rfl, rfl⟩
  | commitEnqueue k =>
    simp only [step, commitEnqueue] at hs
    split at hs
    · cases hs
    · split at hs
      · cases hs
      · cases hs
        exact Or.inr (Or.inl ⟨_, rfl, rfl, rfl⟩)
  | worker i =>
    obtain ⟨h1, h2 | ⟨t, h2, h3⟩⟩ := workerStep_history hs
    · exact Or.inl ⟨h2.1, h1, h2.2⟩
    · exact Or.inr (Or.inr ⟨t, h2, h1, h3⟩)
  | manager =>
    obtain ⟨h1, _, _, h2, h3, _⟩ := managerStep_fields hs
    exact Or.inl ⟨h1, h2, h3⟩
  | destroy =>
    obtain ⟨h1, h2, h3, _⟩ := destroyStep_fields hs
    exact Or.inl ⟨h1, h2, h3⟩

/-- A step that brings the first returned worker about is the `return` of a
worker, taken in a stopped pool with an empty queue. -/
theorem step_returned {p p' : ThreadPool V E} (a : Action V E) (hs : step p a = some p')
    (hr : ∃ w ∈ p'.worker_th_, w.isReturned = true) :
    (∃ w ∈ p.worker_th_, w.isReturned = true) ∨
      (p.is_exit_ = true ∧ p.tasks_ = [] ∧ p'.tasks_ = []) := by
  obtain ⟨w, hw, hwr⟩ := hr
  cases a with
  | commitTest f args =>
    simp only [step] at hs
    split at hs
    · cases hs
    · cases hs
      unfold commitTest at hw
      split at hw <;> exact Or.inl ⟨w, hw, hwr⟩
  | commitEnqueue k =>
    simp only [step, commitEnqueue] at hs
    split at hs
    · cases hs
    · split at hs
      · cases hs
      · cases hs
        exact Or.inl ⟨w, hw, hwr⟩
  | worker i =>
    obtain ⟨b, hb, _, _, _, hret⟩ := workerStep_shape hs
    rw [hb] at hw
    rcases List.mem_or_eq_of_mem_set hw with hw | rfl
    · exact Or.inl ⟨w, hw, hwr⟩
    · exact Or.inr (hret hwr)
  | manager =>
    obtain ⟨_, _, _, _, _, _, _, _, _, k, hk⟩ := managerStep_fields hs
    rw [hk] at hw
    rcases List.mem_append.1 hw with hw | hw
    · exact Or.inl ⟨w, hw, hwr⟩
    · rw [List.eq_of_mem_replicate hw] at hwr; cases hwr
  | destroy =>
    obtain ⟨_, _, _, _, _, _, _, h8 | h8⟩ := destroyStep_fields hs
    · rw [h8.1] at hw; exact Or.inl ⟨w, hw, hwr⟩
    · rw [h8.1] at hw; cases hw

/-- Once the flag is set and no call of `commit` is under way, both stay so and
the queue does not grow. -/
theorem step_stopped {p p' : ThreadPool V E} (a : Action V E) (hs : step p a = some p')
    (hex : p.is_exit_ = true) (hc : p.committing = []) :
    p'.is_exit_ = true ∧ p'.committing = [] ∧ p'.tasks_.length ≤ p.tasks_.length := by
  cases a with
  | commitTest f args =>
    simp only [step] at hs
    split at hs
    · cases hs
    · cases hs
      simp [commitTest, hex, hc]
  | commitEnqueue k =>
    simp only [step, commitEnqueue, hc] at hs
    split at hs <;> simp at hs
  | worker i =>
    obtain ⟨b, _, h1, _, h2, _⟩ := workerStep_shape hs
    obtain ⟨_, h3 | ⟨t, h3, _⟩⟩ := workerStep_history hs
    · exact ⟨h1.trans hex, h2.trans hc, by rw [h3.1]⟩
    · exact ⟨h1.trans hex, h2.trans hc, by rw [h3]; simp⟩
  | manager =>
    obtain ⟨h1, h2, _, _, _, _, _, _, h3, _⟩ := managerStep_fields hs
    exact ⟨h2.trans hex, h3.trans hc, by rw [h1]⟩
  | destroy =>
    obtain ⟨h1, _, _, _, _, h2, h3, _⟩ := destroyStep_fields hs
    exact ⟨h3 hex, h2.trans hc, by rw [h1]⟩

/-- A step of a worker, the manager or the destructor does not lengthen the queue. -/
theorem step_quiet {p p' : ThreadPool V E} (a : Action V E) (hs : step p a = some p')
    (hq : a.isQuiet = true) : p'.tasks_.length ≤ p.tasks_.length := by
  cases a with
  | commitTest f args => cases hq
  | commitEnqueue k => cases hq
  | worker i =>
    obtain ⟨_, h3 | ⟨t, h3, _⟩⟩ := workerStep_history hs
    · rw [h3.1]
    · rw [h3]; simp
  | manager =>
    obtain ⟨h1, _⟩ := managerStep_fields hs
    rw [h1]
  | destroy =>
    obtain ⟨h1, _⟩ := destroyStep_fields hs
    rw [h1]

/-- Until the destructor clears it, the registry never shrinks. -/
theorem step_registry {p p' : ThreadPool V E} (a : Action V E) (hs : step p a = some p')
    (hd : p'.dtor ≠ Destructor.cleared) :
    p.dtor ≠ Destructor.cleared ∧ p.worker_th_.length ≤ p'.worker_th_.length := by
  cases a with
  | commitTest f args =>
    simp only [step] at hs
    split at hs
    · cases hs
    next hc =>
      cases hs
      refine ⟨hc, ?_⟩
      unfold commitTest
      split <;> exact Nat.le_refl _
  | commitEnqueue k =>
    simp only [step, commitEnqueue] at hs
    split at hs
    · cases hs
    next hc =>
      split at hs
      · cases hs
      · cases hs
        exact ⟨hc, Nat.le_refl _⟩
  | worker i =>
    obtain ⟨b, h1, _, h2, _⟩ := workerStep_shape hs
    exact ⟨fun h => hd (h2.trans h), by rw [h1]; simp⟩
  | manager =>
    obtain ⟨_, _, _, _, _, _, _, h2, _, k, hk⟩ := managerStep_fields hs
    exact ⟨fun h => hd (h2.trans h), by rw [hk]; simp⟩
  | destroy =>
    obtain ⟨_, _, _, _, _, _, _, h8 | h8⟩ := destroyStep_fields hs
    · exact ⟨h8.2, by rw [h8.1]⟩
    · exact absurd h8.2 hd

/-- The shutdown flag is never cleared. -/
theorem step_exit_mono {p p' : ThreadPool V E} (a : Action V E) (hs : step p a = some p')
    (hex : p.is_exit_ = true) : p'.is_exit_ = true := by
  cases a with
  | commitTest f args =>
    simp only [step] at hs
    split at hs
    · cases hs
    · cases hs
      simp [commitTest, hex]
  | commitEnqueue k =>
    simp only [step, commitEnqueue] at hs
    split at hs
    · cases hs
    · split at hs
      · cases hs
      · cases hs
        exact hex
  | worker i =>
    obtain ⟨b, _, h1, _⟩ := workerStep_shape hs
    exact h1.trans hex
  | manager =>
    obtain ⟨_, h2, _⟩ := managerStep_fields hs
    exact h2.trans hex
  | destroy =>
    obtain ⟨_, _, _, _, _, _, h3, _⟩ := destroyStep_fields hs
    exact h3 hex

/-- The two reads of `is_exit_` in the locked block of a worker: when the wait
predicate held with the earlier value `e₁` of the flag, it holds with the later
value `e₂` as well, and then the queue is not empty unless the test of line 93,
which reads `e₂`, makes the worker return. -/
theorem locked_block_reads (e₁ e₂ : Bool) (q : List (Task V E)) (hmono : e₁ = true → e₂ = true)
    (hw : (e₁ || !q.isEmpty) = true) :
    (e₂ || !q.isEmpty) = true ∧ ((e₂ && q.isEmpty) = false → q ≠ []) := by
  cases q with
  | nil =>
    have h1 : e₁ = true := by simpa using hw
    simp [hmono h1]
  | cons t rest => simp

/-- Along a schedule the history of submissions only grows at its end. -/
theorem run_submitted_mono (acts : List (Action V E)) :
    ∀ {p p' : ThreadPool V E}, run p acts = some p' → p.submitted <+: p'.submitted := by
  induction acts with
  | nil =>
    intro p p' hr
    cases hr
    exact List.prefix_refl _
  | cons a rest ih =>
    intro p p' hr
    unfold run at hr
    split at hr
    · cases hr
    next q hq =>
      have h1 : p.submitted <+: q.submitted := by
        rcases step_history a hq with h | ⟨t, h⟩ | ⟨t, h⟩
        · rw [h.2.1]
        · rw [h.2.1]; exact List.prefix_append _ _
        · rw [h.2.1]
      exact h1.trans (ih hr)

end ThreadPool

/-! ## Consequences of the invariant -/

namespace ThreadPool

variable {V E : Type}

/-- Every submitted task is executed, held by a worker, or queued, exactly once. -/
theorem Inv.submitted_perm {p : ThreadPool V E} (h : Inv p) :
    p.submitted.Perm (p.executed ++ pendingTasks p) := by
  rw [← h.fifo]
  unfold pendingTasks
  rw [← List.append_assoc]
  exact List.Perm.append_right _ h.held_perm.symm

/-- Two submitted tasks with the same `task_ptr` are the same task. -/
theorem Inv.eq_of_task_ptr {p : ThreadPool V E} (h : Inv p) {t t' : Task V E}
    (ht : t ∈ p.submitted) (ht' : t' ∈ p.submitted) (he : t.task_ptr = t'.task_ptr) : t = t' := by
  have hnd : (p.submitted.map Task.task_ptr).Nodup := by
    rw [h.ptrs]; exact List.nodup_range _
  exact List.inj_on_of_nodup_map hnd ht ht' he

/-- The shared state of a submitted task is unsatisfied until the task was
executed and holds the outcome of its bound call afterwards. -/
theorem Inv.shared_of_submitted {p : ThreadPool V E} (h : Inv p) {t : Task V E}
    (ht : t ∈ p.submitted) :
    (t ∈ p.executed ∧ p.shared[t.task_ptr]? = some (some (t.func ()))) ∨
      (t ∈ pendingTasks p ∧ p.shared[t.task_ptr]? = some none) := by
  rcases List.mem_append.1 (h.submitted_perm.mem_iff.1 ht) with h1 | h1
  · exact Or.inl ⟨h1, h.executed_set t h1⟩
  · exact Or.inr ⟨h1, h.pending_fresh t h1⟩

theorem Inv.running_mem_submitted {p : ThreadPool V E} (h : Inv p) {i : Nat} {t : Task V E}
    (hi : p.worker_th_[i]? = some (Worker.running t)) : t ∈ p.submitted := by
  have hm : t ∈ heldTasks p := List.mem_filterMap.2 ⟨_, mem_of_getElem?_eq hi, rfl⟩
  exact h.submitted_perm.mem_iff.2 (List.mem_append_right _ (List.mem_append_left _ hm))

/-- A running worker whose call comes back: the two steps that lead it back to
the top of its loop, and what the first one stores. -/
theorem Inv.run_task {p : ThreadPool V E} (h : Inv p) {i : Nat} {t : Task V E}
    (hi : p.worker_th_[i]? = some (Worker.running t)) :
    ∃ p₃ p₄, step p (Action.worker i) = some p₃ ∧
      p₃.worker_th_[i]? = some (Worker.finished t) ∧
      p₃.shared[t.task_ptr]? = some (some (t.func ())) ∧
      step p₃ (Action.worker i) = some p₄ ∧
      p₄.worker_th_[i]? = some Worker.waiting ∧
      p₄.tasks_ = p.tasks_ ∧ p₄.is_exit_ = p.is_exit_ ∧ p₄.dtor = p.dtor ∧
      p₄.manager_th_ = p.manager_th_ ∧ p₄.worker_th_ = p.worker_th_.set i Worker.waiting := by
  have hlt : i < p.worker_th_.length := (List.getElem?_eq_some.1 hi).1
  have hfresh : p.shared[t.task_ptr]? = some none := by
    have hm : t ∈ heldTasks p := List.mem_filterMap.2 ⟨_, mem_of_getElem?_eq hi, rfl⟩
    exact h.pending_fresh t (List.mem_append_left _ hm)
  have hpl : t.task_ptr < p.shared.length := by
    by_contra hc
    rw [List.getElem?_eq_none (by omega)] at hfresh
    cases hfresh
  have h3 : (p.worker_th_.set i (Worker.finished t))[i]? = some (Worker.finished t) := by
    simp [List.getElem?_set_self, hlt]
  refine ⟨{ p with
      shared := p.shared.set t.task_ptr (some (t.func ())),
      worker_th_ := p.worker_th_.set i (Worker.finished t),
      executed := p.executed ++ [t] },
    { p with
      shared := p.shared.set t.task_ptr (some (t.func ())),
      worker_th_ := (p.worker_th_.set i (Worker.finished t)).set i Worker.waiting,
      executed := p.executed ++ [t],
      task_run_count_ := p.task_run_count_ - 1 }, ?_, h3, ?_, ?_, ?_, rfl, rfl, rfl, rfl, ?_⟩
  · simp only [step, workerStep, hi, h.invoke_running hi]
  · simp [List.getElem?_set_self, hpl]
  · simp only [step, workerStep, h3]
  · simp [List.getElem?_set_self, hlt]
  · simp

/-- A worker step that ends in `returned` started from a stopped pool with an
empty queue. -/
theorem workerStep_returned {p p' : ThreadPool V E} {i : Nat} (hs : workerStep p i = some p')
    (hr : p'.worker_th_[i]? = some Worker.returned) :
    p.worker_th_[i]? = some Worker.waiting ∧ p.is_exit_ = true ∧ p.tasks_ = [] := by
  unfold workerStep at hs
  split at hs
  · cases hs
  next hi =>
    have hlt : i < p.worker_th_.length := (List.getElem?_eq_some.1 hi).1
    split at hs
    · split at hs
      next he =>
        refine ⟨hi, ?_⟩
        simpa [exitTest, List.isEmpty_iff] using he
      · split at hs
        · cases hs
        · cases hs
          simp [List.getElem?_set_self, hlt] at hr
    · cases hs
  next task hi =>
    have hlt : i < p.worker_th_.length := (List.getElem?_eq_some.1 hi).1
    cases hs
    simp [List.getElem?_set_self, hlt] at hr
  next task hi =>
    have hlt : i < p.worker_th_.length := (List.getElem?_eq_some.1 hi).1
    split at hs <;> cases hs <;> simp [List.getElem?_set_self, hlt] at hr
  next task hi =>
    have hlt : i < p.worker_th_.length := (List.getElem?_eq_some.1 hi).1
    cases hs
    simp [List.getElem?_set_self, hlt] at hr
  · cases hs
  · cases hs

end ThreadPool

/-! ## Progress: the teardown can always be completed -/

namespace ThreadPool

variable {V E : Type}

theorem run_cons_of_step {p q r : ThreadPool V E} {a : Action V E} {acts : List (Action V E)}
    (hs : step p a = some q) (hr : run q acts = some r) : run p (a :: acts) = some r := by
  unfold run
  rw [hs]
  exact hr

/-- In a stopped pool a worker that is not over can move, and the move brings
it closer to its `return`. -/
theorem Inv.worker_progress {p : ThreadPool V E} (h : Inv p) (hex : p.is_exit_ = true)
    {i : Nat} {w : Worker V E} (hi : p.worker_th_[i]? = some w) (hw : w.isReturned = false) :
    ∃ q b, step p (Action.worker i) = some q ∧ q.worker_th_ = p.worker_th_.set i b ∧
      q.is_exit_ = p.is_exit_ ∧ q.dtor = p.dtor ∧ q.manager_th_ = p.manager_th_ ∧
      4 * q.tasks_.length + b.stage < 4 * p.tasks_.length + w.stage := by
  cases w with
  | waiting =>
    cases hq : p.tasks_ with
    | nil =>
      refine ⟨{ p with worker_th_ := p.worker_th_.set i Worker.returned }, Worker.returned,
        ?_, rfl, rfl, rfl, rfl, ?_⟩
      · simp [step, workerStep, hi, waitPred, exitTest, hex, hq]
      · simp [Worker.stage, hq]
    | cons t rest =>
      refine ⟨{ p with
        tasks_ := rest,
        worker_th_ := p.worker_th_.set i (Worker.taken t),
        dispatched := p.dispatched ++ [t] }, Worker.taken t, ?_, rfl, rfl, rfl, rfl, ?_⟩
      · simp [step, workerStep, hi, waitPred, exitTest, hex, hq, frontPop]
      · simp only [Worker.stage, List.length_cons]; omega
  | taken t =>
    refine ⟨{ p with
      task_run_count_ := p.task_run_count_ + 1,
      worker_th_ := p.worker_th_.set i (Worker.running t) }, Worker.running t,
      ?_, rfl, rfl, rfl, rfl, ?_⟩
    · simp [step, workerStep, hi]
    · simp [Worker.stage]
  | running t =>
    refine ⟨{ p with
      shared := p.shared.set t.task_ptr (some (t.func ())),
      worker_th_ := p.worker_th_.set i (Worker.finished t),
      executed := p.executed ++ [t] }, Worker.finished t, ?_, rfl, rfl, rfl, rfl, ?_⟩
    · simp only [step, workerStep, hi, h.invoke_running hi]
    · simp [Worker.stage]
  | finished t =>
    refine ⟨{ p with
      task_run_count_ := p.task_run_count_ - 1,
      worker_th_ := p.worker_th_.set i Worker.waiting }, Worker.waiting,
      ?_, rfl, rfl, rfl, rfl, ?_⟩
    · simp [step, workerStep, hi]
    · simp [Worker.stage]
  | returned => cases hw
  | aborted t =>
    have := h.no_abort _ (mem_of_getElem?_eq hi)
    cases this

/-- In a stopped pool every worker can be run until it returns; the other
workers, the flag, the manager and the destructor are not touched. -/
theorem Inv.worker_terminates (n : Nat) :
    ∀ {p : ThreadPool V E} {i : Nat} {w : Worker V E}, Inv p → p.is_exit_ = true →
      p.worker_th_[i]? = some w → 4 * p.tasks_.length + w.stage ≤ n →
      ∃ acts q, run p acts = some q ∧ q.worker_th_ = p.worker_th_.set i Worker.returned ∧
        q.is_exit_ = p.is_exit_ ∧ q.dtor = p.dtor ∧ q.manager_th_ = p.manager_th_ ∧
        acts.all Action.isQuiet = true := by
  induction n with
  | zero =>
    intro p i w h hex hi hn
    have hlt : i < p.worker_th_.length := (List.getElem?_eq_some.1 hi).1
    cases w with
    | returned =>
      refine ⟨[], p, rfl, ?_, rfl, rfl, rfl, rfl⟩
      rw [set_of_getElem?_eq hi]
    | aborted t => exact absurd (h.no_abort _ (mem_of_getElem?_eq hi)) (by simp [Worker.isAborted])
    | waiting => simp [Worker.stage] at hn
    | finished t => simp [Worker.stage] at hn
    | running t => simp [Worker.stage] at hn
    | taken t => simp [Worker.stage] at hn
  | succ k ih =>
    intro p i w h hex hi hn
    have hlt : i < p.worker_th_.length := (List.getElem?_eq_some.1 hi).1
    cases hw : w.isReturned with
    | true =>
      cases w <;> simp [Worker.isReturned] at hw
      refine ⟨[], p, rfl, ?_, rfl, rfl, rfl, rfl⟩
      rw [set_of_getElem?_eq hi]
    | false =>
      obtain ⟨q, b, hs, hq, he, hd, hm, hlt'⟩ := h.worker_progress hex hi hw
      have hqi : q.worker_th_[i]? = some b := by
        rw [hq]; simp [List.getElem?_set_self, hlt]
      obtain ⟨acts, r, hr, hrw, hre, hrd, hrm, hrq⟩ :=
        ih (inv_step h _ hs) (he.trans hex) hqi (by omega)
      refine ⟨Action.worker i :: acts, r, run_cons_of_step hs hr, ?_, hre.trans he,
        hrd.trans hd, hrm.trans hm, ?_⟩
      · rw [hrw, hq, List.set_set]
      · simp [List.all_cons, Action.isQuiet, hrq]

/-- In a stopped pool all workers can be run until each has returned. -/
theorem Inv.workers_terminate (k : Nat) :
    ∀ {p : ThreadPool V E}, Inv p → p.is_exit_ = true → k ≤ p.worker_th_.length →
      ∃ acts q, run p acts = some q ∧ q.worker_th_.length = p.worker_th_.length ∧
        (∀ j, j < k → q.worker_th_[j]? = some Worker.returned) ∧
        q.is_exit_ = p.is_exit_ ∧ q.dtor = p.dtor ∧ q.manager_th_ = p.manager_th_ ∧
        acts.all Action.isQuiet = true := by
  induction k with
  | zero =>
    intro p _ _ _
    exact ⟨[], p, rfl, rfl, fun j hj => absurd hj (Nat.not_lt_zero j), rfl, rfl, rfl, rfl⟩
  | succ k ih =>
    intro p h hex hk
    obtain ⟨a₁, q₁, hr₁, hl₁, hj₁, he₁, hd₁, hm₁, hq₁⟩ := ih h hex (Nat.le_of_succ_le hk)
    have hlt : k < q₁.worker_th_.length := by omega
    have hi : q₁.worker_th_[k]? = some (q₁.worker_th_[k]) := List.getElem?_eq_getElem hlt
    obtain ⟨a₂, q₂, hr₂, hw₂, he₂, hd₂, hm₂, hq₂⟩ :=
      Inv.worker_terminates _ (inv_run a₁ h hr₁) (he₁.trans hex) hi (Nat.le_refl _)
    refine ⟨a₁ ++ a₂, q₂, run_append a₁ a₂ hr₁ hr₂, ?_, ?_, he₂.trans he₁, hd₂.trans hd₁,
      hm₂.trans hm₁, by simp [List.all_append, hq₁, hq₂]⟩
    · rw [hw₂, List.length_set, hl₁]
    · intro j hj
      rw [hw₂]
      by_cases hjk : j = k
      · subst hjk
        simp [List.getElem?_set_self, hlt]
      · rw [List.getElem?_set_ne (fun e => hjk e.symm)]
        exact hj₁ j (by omega)

/-- In a stopped pool the manager can move while it is not over, and comes closer
to leaving its loop. -/
theorem manager_progress {p : ThreadPool V E} (hex : p.is_exit_ = true)
    (hm : p.manager_th_ ≠ Manager.returned) :
    ∃ q, step p Action.manager = some q ∧ q.manager_th_.stage < p.manager_th_.stage := by
  cases hc : p.manager_th_ with
  | loopTest =>
    exact ⟨{ p with manager_th_ := Manager.returned },
      by simp [step, managerStep, hc, hex], by simp [Manager.stage]⟩
  | sleeping =>
    exact ⟨{ p with
        manager_th_ := Manager.sampled (toInt p.worker_th_.length) (toInt p.tasks_.length) },
      by simp [step, managerStep, hc], by simp [Manager.stage]⟩
  | sampled W Q =>
    exact ⟨{ growRule p W Q with manager_th_ := Manager.grown W },
      by simp [step, managerStep, hc], by simp [Manager.stage]⟩
  | grown W =>
    exact ⟨{ signalRule p W with manager_th_ := Manager.loopTest },
      by simp [step, managerStep, hc], by simp [Manager.stage]⟩
  | returned => exact absurd hc hm

/-- In a stopped pool the manager can be run until it leaves its loop. -/
theorem manager_terminates (n : Nat) :
    ∀ {p : ThreadPool V E}, p.is_exit_ = true → p.manager_th_.stage ≤ n →
      ∃ acts q, run p acts = some q ∧ q.manager_th_ = Manager.returned ∧
        q.is_exit_ = p.is_exit_ ∧ q.dtor = p.dtor ∧
        p.worker_th_.length ≤ q.worker_th_.length ∧ acts.all Action.isQuiet = true := by
  induction n with
  | zero =>
    intro p _ hn
    refine ⟨[], p, rfl, ?_, rfl, rfl, Nat.le_refl _, rfl⟩
    cases hc : p.manager_th_ <;> simp [hc, Manager.stage] at hn ⊢
  | succ k ih =>
    intro p hex hn
    by_cases hm : p.manager_th_ = Manager.returned
    · exact ⟨[], p, rfl, hm, rfl, rfl, Nat.le_refl _, rfl⟩
    · obtain ⟨q, hs, hlt⟩ := manager_progress hex hm
      obtain ⟨_, he, _, _, _, _, _, hd, _, j, hj⟩ := managerStep_fields hs
      obtain ⟨acts, r, hr, hrm, hre, hrd, hrl, hrq⟩ := ih (he.trans hex) (by omega)
      refine ⟨Action.manager :: acts, r, run_cons_of_step hs hr, hrm, hre.trans he,
        hrd.trans hd, ?_, by simp [List.all_cons, Action.isQuiet, hrq]⟩
      have : p.worker_th_.length ≤ q.worker_th_.length := by rw [hj]; simp
      omega

/-- From every state whose destructor has not cleared the registry, the
teardown can be brought to the point where all joins have come back, by steps of
workers, manager and destructor alone; the registry does not shrink on the way. -/
theorem Inv.teardown_completes {p : ThreadPool V E} (h : Inv p)
    (hd : p.dtor ≠ Destructor.cleared) :
    ∃ acts q, run p acts = some q ∧ q.dtor = Destructor.workersJoined ∧
      p.worker_th_.length ≤ q.worker_th_.length ∧ acts.all Action.isQuiet = true := by
  -- from the loop of joins
  have phase3 : ∀ {p : ThreadPool V E}, Inv p → p.dtor = Destructor.managerJoined →
      ∃ acts q, run p acts = some q ∧ q.dtor = Destructor.workersJoined ∧
        p.worker_th_.length ≤ q.worker_th_.length ∧ acts.all Action.isQuiet = true := by
    intro p h hd
    have hex : p.is_exit_ = true := by
      cases he : p.is_exit_ with
      | true => rfl
      | false => have := h.exit_iff.1 he; rw [hd] at this; cases this
    obtain ⟨acts, q, hr, hl, hj, he, hqd, hm, hqq⟩ :=
      h.workers_terminate _ hex (Nat.le_refl _)
    have hall : q.worker_th_.all Worker.isReturned = true := by
      rw [List.all_eq_true]
      intro w hw
      obtain ⟨j, hjl, hjw⟩ := List.getElem_of_mem hw
      have := hj j (by omega)
      rw [List.getElem?_eq_getElem hjl, hjw, Option.some.injEq] at this
      rw [this]; rfl
    have hs : step q Action.destroy = some { q with dtor := Destructor.workersJoined } := by
      simp only [step, destroyStep, hqd.trans hd, hall, if_true]
    exact ⟨acts ++ [Action.destroy], _, run_append acts _ hr (run_cons_of_step hs rfl), rfl,
      by show p.worker_th_.length ≤ q.worker_th_.length; omega,
      by simp [List.all_append, hqq, Action.isQuiet]⟩
  -- from the join of the manager
  have phase2 : ∀ {p : ThreadPool V E}, Inv p → p.dtor = Destructor.exitSet →
      ∃ acts q, run p acts = some q ∧ q.dtor = Destructor.workersJoined ∧
        p.worker_th_.length ≤ q.worker_th_.length ∧ acts.all Action.isQuiet = true := by
    intro p h hd
    have hex : p.is_exit_ = true := by
      cases he : p.is_exit_ with
      | true => rfl
      | false => have := h.exit_iff.1 he; rw [hd] at this; cases this
    obtain ⟨a₁, q₁, hr₁, hm₁, he₁, hd₁, hl₁, hq₁⟩ := manager_terminates _ hex (Nat.le_refl _)
    have hs : step q₁ Action.destroy
        = some { notify_all q₁ with dtor := Destructor.managerJoined } := by
      simp only [step, destroyStep, hd₁.trans hd, hm₁, if_true]
    have hr₂ : run p (a₁ ++ [Action.destroy])
        = some { notify_all q₁ with dtor := Destructor.managerJoined } :=
      run_append a₁ _ hr₁ (run_cons_of_step hs rfl)
    obtain ⟨a₃, q₃, hr₃, hd₃, hl₃, hq₃⟩ := phase3 (inv_run _ h hr₂) rfl
    exact ⟨(a₁ ++ [Action.destroy]) ++ a₃, q₃, run_append _ a₃ hr₂ hr₃, hd₃,
      le_trans hl₁ hl₃, by simp [List.all_append, hq₁, hq₃, Action.isQuiet]⟩
  cases hc : p.dtor with
  | notStarted =>
    have hs : step p Action.destroy
        = some { p with is_exit_ := true, dtor := Destructor.exitSet } := by
      simp only [step, destroyStep, hc]
    obtain ⟨a₂, q₂, hr₂, hd₂, hl₂, hq₂⟩ := phase2 (inv_step h _ hs) rfl
    exact ⟨Action.destroy :: a₂, q₂, run_cons_of_step hs hr₂, hd₂, hl₂,
      by simp [List.all_cons, Action.isQuiet, hq₂]⟩
  | exitSet => exact phase2 h hc
  | managerJoined => exact phase3 h hc
  | workersJoined => exact ⟨[], p, rfl, hc, Nat.le_refl _, rfl⟩
  | cleared => exact absurd hc hd

/-! ## Along a schedule -/

/-- Until the destructor clears it, the registry never shrinks along a schedule. -/
theorem run_registry (acts : List (Action V E)) :
    ∀ {p q : ThreadPool V E}, run p acts = some q → q.dtor ≠ Destructor.cleared →
      p.dtor ≠ Destructor.cleared ∧ p.worker_th_.length ≤ q.worker_th_.length := by
  induction acts with
  | nil =>
    intro p q hr hd
    cases hr
    exact ⟨hd, Nat.le_refl _⟩
  | cons a rest ih =>
    intro p q hr hd
    unfold run at hr
    split at hr
    · cases hr
    next r hs =>
      obtain ⟨h1, h2⟩ := ih hr hd
      obtain ⟨h3, h4⟩ := step_registry a hs h1
      exact ⟨h3, le_trans h4 h2⟩

/-- Tasks submitted before any worker returned are all dispatched once a worker
has returned. -/
theorem run_dispatched_mono (acts : List (Action V E)) (l : List (Task V E)) :
    ∀ {p q : ThreadPool V E}, Inv p → run p acts = some q → l <+: p.submitted →
      ((∃ w ∈ p.worker_th_, w.isReturned = true) → l <+: p.dispatched) →
      (∃ w ∈ q.worker_th_, w.isReturned = true) → l <+: q.dispatched := by
  induction acts with
  | nil =>
    intro p q _ hr _ h2 h3
    cases hr
    exact h2 h3
  | cons a rest ih =>
    intro p q h hr h1 h2 h3
    unfold run at hr
    split at hr
    · cases hr
    next r hs =>
      have hsub : p.submitted <+: r.submitted := by
        rcases step_history a hs with h | ⟨t, h⟩ | ⟨t, h⟩
        · rw [h.2.1]
        · rw [h.2.1]; exact List.prefix_append _ _
        · rw [h.2.1]
      have hdis : p.dispatched <+: r.dispatched := by
        rcases step_history a hs with h | ⟨t, h⟩ | ⟨t, h⟩
        · rw [h.2.2]
        · rw [h.2.2]
        · rw [h.2.2]; exact List.prefix_append _ _
      refine ih (inv_step h a hs) hr (h1.trans hsub) ?_ h3
      intro hret
      rcases step_returned a hs hret with hp | ⟨_, hq, _⟩
      · exact (h2 hp).trans hdis
      · have hf := h.fifo
        rw [hq, List.append_nil] at hf
        rw [← hf] at h1
        exact h1.trans hdis

/-- With the flag set and no call of `commit` under way, a queue that is empty
whenever a worker has returned stays so. -/
theorem run_stopped_queue (acts : List (Action V E)) :
    ∀ {p q : ThreadPool V E}, run p acts = some q → p.is_exit_ = true → p.committing = [] →
      ((∃ w ∈ p.worker_th_, w.isReturned = true) → p.tasks_ = []) →
      (∃ w ∈ q.worker_th_, w.isReturned = true) → q.tasks_ = [] := by
  induction acts with
  | nil =>
    intro p q hr _ _ h2 h3
    cases hr
    exact h2 h3
  | cons a rest ih =>
    intro p q hr hex hc h2 h3
    unfold run at hr
    split at hr
    · cases hr
    next r hs =>
      obtain ⟨h4, h5, h6⟩ := step_stopped a hs hex hc
      refine ih hr h4 h5 ?_ h3
      intro hret
      rcases step_returned a hs hret with hp | ⟨_, _, hq⟩
      · have := h2 hp
        rw [this] at h6
        exact List.length_eq_zero.1 (Nat.le_zero.1 h6)
      · exact hq

/-- Steps of workers, manager and destructor keep the queue empty whenever a
worker has returned. -/
theorem run_quiet_queue (acts : List (Action V E)) :
    ∀ {p q : ThreadPool V E}, run p acts = some q → acts.all Action.isQuiet = true →
      ((∃ w ∈ p.worker_th_, w.isReturned = true) → p.tasks_ = []) →
      (∃ w ∈ q.worker_th_, w.isReturned = true) → q.tasks_ = [] := by
  induction acts with
  | nil =>
    intro p q hr _ h2 h3
    cases hr
    exact h2 h3
  | cons a rest ih =>
    intro p q hr hq h2 h3
    unfold run at hr
    split at hr
    · cases hr
    next r hs =>
      rw [List.all_cons, Bool.and_eq_true] at hq
      have h6 := step_quiet a hs hq.1
      refine ih hr hq.2 ?_ h3
      intro hret
      rcases step_returned a hs hret with hp | ⟨_, _, hr'⟩
      · have := h2 hp
        rw [this] at h6
        exact List.length_eq_zero.1 (Nat.le_zero.1 h6)
      · exact hr'

end ThreadPool

/-! ## Sample executions are executions -/

namespace ThreadPool

theorem burstState_reachable : Reachable burstState :=
  ⟨15, burstSchedule, rfl⟩

theorem fifoState_reachable : Reachable fifoState :=
  ⟨1, fifoSchedule, rfl⟩

theorem shutdownState_reachable : Reachable shutdownState :=
  ⟨2, shutdownSchedule, rfl⟩

end ThreadPool

/-! ## The claims -/

namespace ThreadPool

variable {V E : Type}

theorem commit_as_steps {A : Type} (p : ThreadPool V E) (f : A → Outcome V E) (args : A)
    (hex : p.is_exit_ = false) (hd : p.dtor ≠ Destructor.cleared) :
    run p [Action.commitTest f args, Action.commitEnqueue p.committing.length]
      = some (commit p f args).2 := by
  simp [run, step, hd, commitTest, commitEnqueue, commit, enqueue, hex,
    List.eraseIdx_append_of_length_le]

/-- C1: in every state reachable from a construction with any initial count, by
any interleaving of submissions, worker steps, manager steps and destructor
steps, the worker registry holds at most 16 workers; a construction with
initial count 100 yields exactly 16 workers. -/
theorem worker_count_at_most_max (p : ThreadPool V E) (h : Reachable p) :
    p.worker_th_.length ≤ 16 ∧ (construct V E 100).worker_th_.length = 16 := by
  refine ⟨(inv_reachable h).size_le, ?_⟩
  unfold construct
  rw [addThread_eq]
  simp [THREADPOOL_MAX_NUM]

theorem worker_count_at_most_max_witness :
    Reachable burstState ∧
      (burstState.worker_th_.length ≤ 16 ∧ (construct Nat Nat 100).worker_th_.length = 16) :=
  ⟨burstState_reachable, worker_count_at_most_max burstState burstState_reachable⟩

/-- C2, as the code has it: for every integer `num` given to the constructor the
registry holds `num` clamped to `[0, 16]` workers right after construction, that
is `min (max num 0) 16`. -/
theorem construct_worker_count (num : Int) :
    ((construct V E num).worker_th_.length : Int) = min (max num 0) 16 := by
  unfold construct
  rw [addThread_eq]
  simp only [THREADPOOL_MAX_NUM, List.nil_append, List.length_nil, List.length_replicate,
    Nat.sub_zero]
  omega

/-- C2 as stated fails: an initial count of `0` gives an empty registry, where
the clamp to `[1, 16]` would give one worker. -/
theorem construct_zero_has_no_worker :
    (construct Nat Nat 0).worker_th_.length = 0 ∧
      ((construct Nat Nat 0).worker_th_.length : Int) ≠ min (max 0 1) 16 := by
  decide

/-- C3: when the shutdown flag is set, `commit` throws the "stopped" error and
leaves the state as it was: same queue, registry, flag, counter, and the same
history of enqueued and executed tasks.  As a step of a concurrent execution the
failing test leaves the state as it was, too. -/
theorem commit_on_stopped_pool {A : Type} (p : ThreadPool V E) (f : A → Outcome V E) (args : A)
    (h : p.is_exit_ = true) :
    commit p f args = (Except.error "commit on ThreadPool is stopped.", p) ∧
      (commit p f args).2.tasks_ = p.tasks_ ∧
      (commit p f args).2.worker_th_ = p.worker_th_ ∧
      (commit p f args).2.is_exit_ = p.is_exit_ ∧
      (commit p f args).2.task_run_count_ = p.task_run_count_ ∧
      (commit p f args).2.submitted = p.submitted ∧
      (commit p f args).2.executed = p.executed ∧
      (p.dtor ≠ Destructor.cleared → step p (Action.commitTest f args) = some p) := by
  rw [commit_stopped p f args h]
  refine ⟨rfl, rfl, rfl, rfl, rfl, rfl, rfl, ?_⟩
  intro hd
  simp [step, hd, commitTest, h]

theorem commit_on_stopped_pool_witness :
    stoppedState.is_exit_ = true ∧
      commit stoppedState sampleWork 5
        = (Except.error "commit on ThreadPool is stopped.", stoppedState) ∧
      (commit stoppedState sampleWork 5).2.tasks_ = stoppedState.tasks_ ∧
      (commit stoppedState sampleWork 5).2.worker_th_ = stoppedState.worker_th_ ∧
      (commit stoppedState sampleWork 5).2.is_exit_ = stoppedState.is_exit_ ∧
      (commit stoppedState sampleWork 5).2.task_run_count_ = stoppedState.task_run_count_ ∧
      (commit stoppedState sampleWork 5).2.submitted = stoppedState.submitted ∧
      (commit stoppedState sampleWork 5).2.executed = stoppedState.executed ∧
      (stoppedState.dtor ≠ Destructor.cleared →
        step stoppedState (Action.commitTest sampleWork 5) = some stoppedState) :=
  ⟨rfl, commit_on_stopped_pool stoppedState sampleWork 5 rfl⟩

/-- C4: when the shutdown flag is not set, `commit` returns a future and the new
queue is the old queue with exactly one task, the bound call `f(args)`, appended
at the tail; registry, flag and counter are unchanged.  The call is its test
followed by its enqueue, and the enqueue of any call under way, whatever
happened since its test, appends exactly one task at the tail of the queue as
it is then and leaves registry, flag and counter alone. -/
theorem commit_appends_task {A : Type} (p : ThreadPool V E) (f : A → Outcome V E) (args : A)
    (h : p.is_exit_ = false) :
    (∃ future : Nat, (commit p f args).1 = Except.ok future ∧
      (commit p f args).2.tasks_
        = p.tasks_ ++ [{ task_ptr := future, func := fun _ => f args }] ∧
      (commit p f args).2.tasks_.length = p.tasks_.length + 1 ∧
      (commit p f args).2.worker_th_ = p.worker_th_ ∧
      (commit p f args).2.is_exit_ = p.is_exit_ ∧
      (commit p f args).2.task_run_count_ = p.task_run_count_) ∧
      (p.dtor ≠ Destructor.cleared →
        run p [Action.commitTest f args, Action.commitEnqueue p.committing.length]
          = some (commit p f args).2) ∧
      (∀ (q : ThreadPool V E) (k : Nat) (func : Unit → Outcome V E),
        q.committing[k]? = some func →
        ∃ r, commitEnqueue q k = some r ∧
          r.2.tasks_ = q.tasks_ ++ [{ task_ptr := r.1, func := func }] ∧
          r.2.worker_th_ = q.worker_th_ ∧ r.2.is_exit_ = q.is_exit_ ∧
          r.2.task_run_count_ = q.task_run_count_) := by
  refine ⟨?_, commit_as_steps p f args h, ?_⟩
  · rw [commit_running p f args h]
    exact ⟨p.shared.length, rfl, rfl, by simp, rfl, rfl, rfl⟩
  · intro q k func hk
    exact ⟨enqueue { q with committing := q.committing.eraseIdx k } func,
      by simp only [commitEnqueue, hk], rfl, rfl, rfl, rfl⟩

theorem commit_appends_task_witness :
    burstState.is_exit_ = false ∧
      ((∃ future : Nat, (commit burstState sampleWork 4).1 = Except.ok future ∧
        (commit burstState sampleWork 4).2.tasks_
          = burstState.tasks_ ++ [{ task_ptr := future, func := fun _ => sampleWork 4 }] ∧
        (commit burstState sampleWork 4).2.tasks_.length = burstState.tasks_.length + 1 ∧
        (commit burstState sampleWork 4).2.worker_th_ = burstState.worker_th_ ∧
        (commit burstState sampleWork 4).2.is_exit_ = burstState.is_exit_ ∧
        (commit burstState sampleWork 4).2.task_run_count_ = burstState.task_run_count_) ∧
      (burstState.dtor ≠ Destructor.cleared →
        run burstState
            [Action.commitTest sampleWork 4, Action.commitEnqueue burstState.committing.length]
          = some (commit burstState sampleWork 4).2) ∧
      (∀ (q : ThreadPool Nat Nat) (k : Nat) (func : Unit → Outcome Nat Nat),
        q.committing[k]? = some func →
        ∃ r, commitEnqueue q k = some r ∧
          r.2.tasks_ = q.tasks_ ++ [{ task_ptr := r.1, func := func }] ∧
          r.2.worker_th_ = q.worker_th_ ∧ r.2.is_exit_ = q.is_exit_ ∧
          r.2.task_run_count_ = q.task_run_count_)) :=
  ⟨rfl, commit_appends_task burstState sampleWork 4 rfl⟩

/-- C5: in every reachable state the tasks dispatched so far, in dispatch order,
followed by the pending queue are exactly the tasks submitted, in enqueue order:
no task is lost, duplicated or reordered.  Every step either leaves queue and
histories alone, or enqueues at the tail, or pops the head; and a free worker
that finds `a` at the head of the queue takes `a`. -/
theorem dispatch_is_fifo (p : ThreadPool V E) (h : Reachable p) :
    p.dispatched ++ p.tasks_ = p.submitted ∧
      (∀ a p', step p a = some p' →
        (p'.tasks_ = p.tasks_ ∧ p'.submitted = p.submitted ∧ p'.dispatched = p.dispatched) ∨
        (∃ t, p'.tasks_ = p.tasks_ ++ [t] ∧ p'.submitted = p.submitted ++ [t] ∧
          p'.dispatched = p.dispatched) ∨
        (∃ t, p.tasks_ = t :: p'.tasks_ ∧ p'.submitted = p.submitted ∧
          p'.dispatched = p.dispatched ++ [t])) ∧
      (∀ i a rest, p.worker_th_[i]? = some Worker.waiting → p.tasks_ = a :: rest →
        ∃ p', step p (Action.worker i) = some p' ∧
          p'.worker_th_[i]? = some (Worker.taken a) ∧ p'.tasks_ = rest ∧
          p'.dispatched = p.dispatched ++ [a]) := by
  refine ⟨(inv_reachable h).fifo, fun a p' hs => step_history a hs, ?_⟩
  intro i a rest hi hq
  have hlt : i < p.worker_th_.length := (List.getElem?_eq_some.1 hi).1
  refine ⟨{ p with
    tasks_ := rest,
    worker_th_ := p.worker_th_.set i (Worker.taken a),
    dispatched := p.dispatched ++ [a] }, ?_, ?_, rfl, rfl⟩
  · simp [step, workerStep, hi, hq, frontPop, waitPred, exitTest]
  · simp [List.getElem?_set_self, hlt]

theorem dispatch_is_fifo_witness :
    Reachable fifoState ∧
      (fifoState.tasks_.map Task.task_ptr = [1, 2, 3] ∧
        fifoState.worker_th_.map Worker.isWaiting = [true]) ∧
      (fifoState.dispatched ++ fifoState.tasks_ = fifoState.submitted ∧
        (∀ a p', step fifoState a = some p' →
          (p'.tasks_ = fifoState.tasks_ ∧ p'.submitted = fifoState.submitted ∧
            p'.dispatched = fifoState.dispatched) ∨
          (∃ t, p'.tasks_ = fifoState.tasks_ ++ [t] ∧ p'.submitted = fifoState.submitted ++ [t] ∧
            p'.dispatched = fifoState.dispatched) ∨
          (∃ t, fifoState.tasks_ = t :: p'.tasks_ ∧ p'.submitted = fifoState.submitted ∧
            p'.dispatched = fifoState.dispatched ++ [t])) ∧
        (∀ i a rest, fifoState.worker_th_[i]? = some Worker.waiting →
          fifoState.tasks_ = a :: rest →
          ∃ p', step fifoState (Action.worker i) = some p' ∧
            p'.worker_th_[i]? = some (Worker.taken a) ∧ p'.tasks_ = rest ∧
            p'.dispatched = fifoState.dispatched ++ [a])) :=
  ⟨fifoState_reachable, ⟨by decide, by decide⟩, dispatch_is_fifo fifoState fifoState_reachable⟩

/-- C6, as the code has it: shutdown is a drain for a pool that has at least one
worker.  A worker returns only from a state where the shutdown flag is set and
the queue is empty.  From a state `p` with a worker in the registry and no
worker returned yet (as when shutdown is requested), once the joins of the
teardown have come back the manager and every worker are over and all tasks that
were dispatched or pending at `p` (the `K` pending tasks) have been dispatched
and executed; the queue is then empty provided that at `p` the flag was set and
no call of `commit` was between its test and its enqueue.  And the teardown
can always be run to that point, leaving the queue empty. -/
theorem shutdown_drains_queue (p : ThreadPool V E) (h : Reachable p)
    (hne : p.worker_th_ ≠ []) (hlive : ∀ w ∈ p.worker_th_, w.isReturned = false) :
    (∀ (r r' : ThreadPool V E) (i : Nat), step r (Action.worker i) = some r' →
        r'.worker_th_[i]? = some Worker.returned → r.is_exit_ = true ∧ r.tasks_ = []) ∧
      (∀ acts q, run p acts = some q → q.dtor = Destructor.workersJoined →
        q.manager_th_ = Manager.returned ∧ q.worker_th_ ≠ [] ∧
          (∀ w ∈ q.worker_th_, w.isReturned = true) ∧ q.is_exit_ = true ∧
          (p.dispatched ++ p.tasks_) <+: q.dispatched ∧ q.executed.Perm q.dispatched ∧
          (p.is_exit_ = true → p.committing = [] →
            q.tasks_ = [] ∧ q.dispatched = q.submitted)) ∧
      (∃ acts q, run p acts = some q ∧ q.dtor = Destructor.workersJoined ∧
        q.tasks_ = [] ∧ (p.dispatched ++ p.tasks_) <+: q.dispatched ∧
        q.executed.Perm q.dispatched) := by
  have hinv := inv_reachable h
  have hd : p.dtor ≠ Destructor.cleared := fun hc => hne (hinv.cleared hc)
  have hnone : ¬ ∃ w ∈ p.worker_th_, w.isReturned = true := by
    rintro ⟨w, hw, hr⟩
    rw [hlive w hw] at hr
    cases hr
  have key : ∀ acts q, run p acts = some q → q.dtor = Destructor.workersJoined →
      q.manager_th_ = Manager.returned ∧ q.worker_th_ ≠ [] ∧
        (∀ w ∈ q.worker_th_, w.isReturned = true) ∧ q.is_exit_ = true ∧
        (p.dispatched ++ p.tasks_) <+: q.dispatched ∧ q.executed.Perm q.dispatched ∧
        (∃ w ∈ q.worker_th_, w.isReturned = true) := by
    intro acts q hr hqd
    have hq := inv_run acts hinv hr
    have hall := hq.joined hqd
    have hlen := (run_registry acts hr (by rw [hqd]; simp)).2
    have hne' : q.worker_th_ ≠ [] := by
      intro he
      rw [he] at hlen
      exact hne (List.length_eq_zero.1 (Nat.le_zero.1 hlen))
    obtain ⟨w, hw⟩ := List.exists_mem_of_ne_nil _ hne'
    have hex : ∃ w ∈ q.worker_th_, w.isReturned = true := ⟨w, hw, hall w hw⟩
    have hm : q.manager_th_ = Manager.returned := by
      by_contra hc
      rcases hq.mgr_alive hc with h1 | h1 <;> rw [hqd] at h1 <;> cases h1
    have hpre := run_dispatched_mono acts p.submitted hinv hr (List.prefix_refl _)
      (fun hp => absurd hp hnone) hex
    rw [← hinv.fifo] at hpre
    have hperm := hq.held_perm
    rw [show heldTasks q = [] from filterMap_held_of_returned _ hall, List.append_nil] at hperm
    exact ⟨hm, hne', hall, hq.returned_exit hex, hpre, hperm, hex⟩
  refine ⟨?_, ?_, ?_⟩
  · intro r r' i hs hr
    exact (workerStep_returned hs hr).2
  · intro acts q hr hqd
    obtain ⟨h1, h2, h3, h4, h5, h6, hex⟩ := key acts q hr hqd
    refine ⟨h1, h2, h3, h4, h5, h6, ?_⟩
    intro he hc
    have hq := run_stopped_queue acts hr he hc (fun hp => absurd hp hnone) hex
    have hf := (inv_run acts hinv hr).fifo
    rw [hq, List.append_nil] at hf
    exact ⟨hq, hf⟩
  · obtain ⟨acts, q, hr, hqd, _, hquiet⟩ := hinv.teardown_completes hd
    obtain ⟨_, _, _, _, h5, h6, hex⟩ := key acts q hr hqd
    exact ⟨acts, q, hr, hqd,
      run_quiet_queue acts hr hquiet (fun hp => absurd hp hnone) hex, h5, h6⟩

theorem shutdown_drains_queue_witness :
    Reachable shutdownState ∧
      (shutdownState.is_exit_ = true ∧ shutdownState.tasks_.length = 3 ∧
        shutdownState.worker_th_.map Worker.isReturned = [false, false] ∧
        shutdownState.committing.length = 0) ∧
      ∃ acts q, run shutdownState acts = some q ∧ q.dtor = Destructor.workersJoined ∧
        q.tasks_ = [] ∧ (shutdownState.dispatched ++ shutdownState.tasks_) <+: q.dispatched ∧
        q.executed.Perm q.dispatched :=
  ⟨shutdownState_reachable, ⟨by decide, by decide, by decide, by decide⟩,
    (shutdown_drains_queue shutdownState shutdownState_reachable
      (by intro hc; exact absurd (congrArg List.length hc) (by decide))
      (by
        intro w hw
        have hl : shutdownState.worker_th_ = [Worker.waiting, Worker.waiting] := rfl
        rw [hl] at hw
        simp only [List.mem_cons, List.mem_singleton, List.not_mem_nil, or_false, or_self] at hw
        rw [hw]; rfl)).2.2⟩

/-- C6 as stated fails in two ways.  On a pool constructed with no worker the
teardown reaches the end of its joins (manager over, every registered worker
over, there being none) with the submitted task still queued and never executed.
On a pool with one worker a call of `commit` that passed its test before the flag
was set enqueues its task after the worker has returned: the joins come back
with that task still queued and never executed. -/
theorem shutdown_can_leave_task :
    (Reachable lostState ∧ lostState.is_exit_ = true ∧
      lostState.dtor = Destructor.workersJoined ∧
      lostState.manager_th_ = Manager.returned ∧
      lostState.worker_th_.length = 0 ∧
      lostState.tasks_.length = 1 ∧ lostState.dispatched.length = 0 ∧
      lostState.executed.length = 0) ∧
    (Reachable lateState ∧ lateState.is_exit_ = true ∧
      lateState.dtor = Destructor.workersJoined ∧
      lateState.manager_th_ = Manager.returned ∧
      lateState.worker_th_.map Worker.isReturned = [true] ∧
      lateState.tasks_.length = 1 ∧ lateState.dispatched.length = 0 ∧
      lateState.executed.length = 0) :=
  ⟨⟨⟨0, lostSchedule, rfl⟩, by decide, by decide, by decide, by decide, by decide, by decide,
      by decide⟩,
    ⟨⟨1, lateSchedule, rfl⟩, by decide, by decide, by decide, by decide, by decide, by decide,
      by decide⟩⟩

/-- C7: in every reachable state `taskRunCount()` equals the number of workers
that are between their increment and their decrement, so it is at least 0 and at
most the size of the worker registry. -/
theorem task_run_count_bounds (p : ThreadPool V E) (h : Reachable p) :
    0 ≤ taskRunCount p ∧
      taskRunCount p ≤ (p.worker_th_.length : Int) ∧
      taskRunCount p = ((p.worker_th_.countP Worker.isBusy : Nat) : Int) := by
  have hc := (inv_reachable h).count_eq
  have hle : p.worker_th_.countP Worker.isBusy ≤ p.worker_th_.length := List.countP_le_length _
  unfold taskRunCount
  omega

theorem task_run_count_bounds_witness :
    Reachable burstState ∧
      (0 ≤ taskRunCount burstState ∧
        taskRunCount burstState ≤ (burstState.worker_th_.length : Int) ∧
        taskRunCount burstState = ((burstState.worker_th_.countP Worker.isBusy : Nat) : Int)) :=
  ⟨burstState_reachable, task_run_count_bounds burstState burstState_reachable⟩

/-- C8: a successful `commit(f, args)` enqueues a task bound to a fresh,
unsatisfied shared state (the returned future).  From then on that shared state
is either still unsatisfied or holds exactly the outcome of `f(args)`, value or
failure alike; no worker is ever left by an exception; and the worker that runs
the task stores that outcome, sees the call come back and goes back to the top
of its loop. -/
theorem task_outcome_delivered {A : Type} (p : ThreadPool V E) (h : Reachable p)
    (f : A → Outcome V E) (args : A) (hex : p.is_exit_ = false) :
    ∃ future p₁, commit p f args = (Except.ok future, p₁) ∧
      p₁.tasks_ = p.tasks_ ++ [{ task_ptr := future, func := fun _ => f args }] ∧
      p₁.shared[future]? = some none ∧
      ∀ acts p₂, run p₁ acts = some p₂ →
        (p₂.shared[future]? = some none ∨ p₂.shared[future]? = some (some (f args))) ∧
        (∀ t ∈ p₂.executed, t.task_ptr = future →
          p₂.shared[future]? = some (some (f args))) ∧
        (∀ w ∈ p₂.worker_th_, w.isAborted = false) ∧
        (∀ i t, p₂.worker_th_[i]? = some (Worker.running t) → t.task_ptr = future →
          ∃ p₃ p₄, step p₂ (Action.worker i) = some p₃ ∧
            p₃.worker_th_[i]? = some (Worker.finished t) ∧
            p₃.shared[future]? = some (some (f args)) ∧
            step p₃ (Action.worker i) = some p₄ ∧
            p₄.worker_th_[i]? = some Worker.waiting) := by
  have hinv := inv_reachable h
  have hinv₁ := inv_commit hinv f args
  rw [commit_running p f args hex] at hinv₁
  refine ⟨p.shared.length, _, commit_running p f args hex, rfl, by simp, ?_⟩
  intro acts p₂ hr
  have hinv₂ := inv_run acts hinv₁ hr
  have hsub : ({ task_ptr := p.shared.length, func := fun _ => f args } : Task V E)
      ∈ p₂.submitted :=
    (run_submitted_mono acts hr).subset (by simp)
  have hsame : ∀ t ∈ p₂.submitted, t.task_ptr = p.shared.length →
      t = { task_ptr := p.shared.length, func := fun _ => f args } :=
    fun t ht he => hinv₂.eq_of_task_ptr ht hsub he
  refine ⟨?_, ?_, hinv₂.no_abort, ?_⟩
  · rcases hinv₂.shared_of_submitted hsub with h1 | h1
    · exact Or.inr h1.2
    · exact Or.inl h1.2
  · intro t ht he
    have hts : t ∈ p₂.submitted :=
      hinv₂.submitted_perm.mem_iff.2 (List.mem_append_left _ ht)
    have := hinv₂.executed_set t ht
    rw [hsame t hts he] at this
    exact this
  · intro i t hi he
    obtain ⟨p₃, p₄, h1, h2, h3, h4, h5, _⟩ := hinv₂.run_task hi
    rw [hsame t (hinv₂.running_mem_submitted hi) he] at h3
    exact ⟨p₃, p₄, h1, h2, h3, h4, h5⟩

theorem task_outcome_delivered_witness :
    Reachable fifoState ∧ fifoState.is_exit_ = false ∧
      sampleWork 0 = Outcome.raised 7 ∧
      ∃ future p₁, commit fifoState sampleWork 0 = (Except.ok future, p₁) ∧
        p₁.tasks_
          = fifoState.tasks_ ++ [{ task_ptr := future, func := fun _ => sampleWork 0 }] ∧
        p₁.shared[future]? = some none ∧
        ∀ acts p₂, run p₁ acts = some p₂ →
          (p₂.shared[future]? = some none ∨
            p₂.shared[future]? = some (some (sampleWork 0))) ∧
          (∀ t ∈ p₂.executed, t.task_ptr = future →
            p₂.shared[future]? = some (some (sampleWork 0))) ∧
          (∀ w ∈ p₂.worker_th_, w.isAborted = false) ∧
          (∀ i t, p₂.worker_th_[i]? = some (Worker.running t) → t.task_ptr = future →
            ∃ p₃ p₄, step p₂ (Action.worker i) = some p₃ ∧
              p₃.worker_th_[i]? = some (Worker.finished t) ∧
              p₃.shared[future]? = some (some (sampleWork 0)) ∧
              step p₃ (Action.worker i) = some p₄ ∧
              p₄.worker_th_[i]? = some Worker.waiting) :=
  ⟨fifoState_reachable, rfl, by decide,
    task_outcome_delivered fifoState fifoState_reachable sampleWork 0 rfl⟩

/-- C9: one manager tick on a pool of `W ≤ 16` workers, with sampled worker count
and sampled queue length `Q`: the worker count afterwards is `W + 1` when `Q > W`
and `W < 16`, and `W` otherwise.  The shrink-signal rule changes nothing, the
tick leaves queue, shutdown flag and counter alone, the tick is what three
consecutive manager steps do, and no manager step, however interleaved, lowers
the worker count or touches queue, flag or counter.  The samples are the true
sizes (the queue length as long as it fits an `int`); when other threads move
between the sample and the grow rule, the sampled `W` is still the worker count
and the rule is applied to the sampled `Q`. -/
theorem manager_tick_rules (p : ThreadPool V E) (hW : p.worker_th_.length ≤ 16) :
    toInt p.worker_th_.length = (p.worker_th_.length : Int) ∧
      (p.tasks_.length < 2 ^ 31 → toInt p.tasks_.length = (p.tasks_.length : Int)) ∧
      ((managerTick p).worker_th_.length : Int)
        = (if toInt p.tasks_.length > (p.worker_th_.length : Int) ∧
              (p.worker_th_.length : Int) < 16
            then (p.worker_th_.length : Int) + 1 else (p.worker_th_.length : Int)) ∧
      (∀ (q : ThreadPool V E) (threads_num : Int), signalRule q threads_num = q) ∧
      (managerTick p).tasks_ = p.tasks_ ∧
      (managerTick p).is_exit_ = p.is_exit_ ∧
      (managerTick p).task_run_count_ = p.task_run_count_ ∧
      p.worker_th_.length ≤ (managerTick p).worker_th_.length ∧
      (p.manager_th_ = Manager.sleeping →
        run p [Action.manager, Action.manager, Action.manager] = some (managerTick p)) ∧
      (∀ p', managerStep p = some p' →
        p.worker_th_.length ≤ p'.worker_th_.length ∧ p'.tasks_ = p.tasks_ ∧
          p'.is_exit_ = p.is_exit_ ∧ p'.task_run_count_ = p.task_run_count_) ∧
      (Reachable p → ∀ W Q, p.manager_th_ = Manager.sampled W Q →
        W = (p.worker_th_.length : Int)) ∧
      (∀ W Q, p.manager_th_ = Manager.sampled W Q → W = (p.worker_th_.length : Int) →
        ∃ p', managerStep p = some p' ∧ p'.manager_th_ = Manager.grown W ∧
          (p'.worker_th_.length : Int) = (if Q > W ∧ W < 16 then W + 1 else W)) := by
  have hWi : toInt p.worker_th_.length = (p.worker_th_.length : Int) :=
    toInt_of_lt _ (by omega)
  have htick : managerTick p =
      { growRule p (toInt p.worker_th_.length) (toInt p.tasks_.length) with
        manager_th_ := Manager.loopTest } := by
    unfold managerTick
    simp only [signalRule_eq]
  refine ⟨hWi, fun hq => toInt_of_lt _ hq, ?_, signalRule_eq, ?_, ?_, ?_, ?_, ?_, ?_,
    fun hr => (inv_reachable hr).mgr_sampled, ?_⟩
  · rw [htick, growRule_eq, hWi]
    simp only [THREADPOOL_MAX_NUM, List.length_append, List.length_replicate]
    split <;> push_cast <;> omega
  · rw [htick, growRule_eq]
  · rw [htick, growRule_eq]
  · rw [htick, growRule_eq]
  · rw [htick, growRule_eq]
    simp
  · intro hm
    rw [htick]
    simp [run, step, managerStep, hm, signalRule_eq, growRule_eq]
  · intro p' hs
    obtain ⟨h1, h2, h3, _, _, _, _, _, _, k, hk⟩ := managerStep_fields hs
    exact ⟨by rw [hk]; simp, h1, h2, h3⟩
  · intro W Q hm hWl
    refine ⟨{ growRule p W Q with manager_th_ := Manager.grown W }, ?_, rfl, ?_⟩
    · simp only [managerStep, hm]
    · show ((growRule p W Q).worker_th_.length : Int) = _
      rw [growRule_eq, hWl]
      simp only [THREADPOOL_MAX_NUM, List.length_append, List.length_replicate]
      split <;> push_cast <;> omega

theorem manager_tick_rules_witness :
    sleepingState.worker_th_.length ≤ 16 ∧
      (sleepingState.manager_th_ = Manager.sleeping ∧ sleepingState.worker_th_.length = 3 ∧
        sleepingState.tasks_.length = 5 ∧ (managerTick sleepingState).worker_th_.length = 4) ∧
      ((managerTick sleepingState).worker_th_.length : Int)
        = (if toInt sleepingState.tasks_.length > (sleepingState.worker_th_.length : Int) ∧
              (sleepingState.worker_th_.length : Int) < 16
            then (sleepingState.worker_th_.length : Int) + 1
            else (sleepingState.worker_th_.length : Int)) ∧
      (managerTick sleepingState).tasks_ = sleepingState.tasks_ ∧
      (managerTick sleepingState).is_exit_ = sleepingState.is_exit_ ∧
      (managerTick sleepingState).task_run_count_ = sleepingState.task_run_count_ :=
  ⟨by decide, ⟨by decide, by decide, by decide, by decide⟩,
    (manager_tick_rules sleepingState (by decide)).2.2.1,
    (manager_tick_rules sleepingState (by decide)).2.2.2.2.1,
    (manager_tick_rules sleepingState (by decide)).2.2.2.2.2.1,
    (manager_tick_rules sleepingState (by decide)).2.2.2.2.2.2.1⟩

/-- C10: a worker never pops an empty queue.  In every state where the wait
predicate holds and the test of line 93 is false the queue is not empty, so
`front`/`pop` is defined and removes exactly the head: the rest keeps its order
and is one shorter, and a waiting worker that moves takes exactly that head. -/
theorem worker_pop_defined (p : ThreadPool V E) (hw : waitPred p = true)
    (he : exitTest p = false) :
    p.tasks_ ≠ [] ∧
      ∃ t rest, frontPop p.tasks_ = some (t, rest) ∧ p.tasks_ = t :: rest ∧
        rest.length + 1 = p.tasks_.length ∧
        ∀ i, p.worker_th_[i]? = some Worker.waiting →
          ∃ p', workerStep p i = some p' ∧ p'.tasks_ = rest ∧
            p'.worker_th_[i]? = some (Worker.taken t) := by
  cases hq : p.tasks_ with
  | nil =>
    simp [waitPred, exitTest, hq] at hw he
    rw [hw] at he
    cases he
  | cons t rest =>
    refine ⟨by simp, t, rest, rfl, rfl, rfl, ?_⟩
    intro i hi
    have hlt : i < p.worker_th_.length := (List.getElem?_eq_some.1 hi).1
    refine ⟨{ p with
      tasks_ := rest,
      worker_th_ := p.worker_th_.set i (Worker.taken t),
      dispatched := p.dispatched ++ [t] }, ?_, rfl, ?_⟩
    · simp [workerStep, hi, hw, he, hq, frontPop]
    · simp [List.getElem?_set_self, hlt]

theorem worker_pop_defined_witness :
    waitPred burstState = true ∧ exitTest burstState = false ∧
      (burstState.tasks_ ≠ [] ∧
        ∃ t rest, frontPop burstState.tasks_ = some (t, rest) ∧ burstState.tasks_ = t :: rest ∧
          rest.length + 1 = burstState.tasks_.length ∧
          ∀ i, burstState.worker_th_[i]? = some Worker.waiting →
            ∃ p', workerStep burstState i = some p' ∧ p'.tasks_ = rest ∧
              p'.worker_th_[i]? = some (Worker.taken t)) :=
  ⟨rfl, rfl, worker_pop_defined burstState rfl rfl⟩

end ThreadPool
